import Mathlib

/-!
Verification of the Jellyfin-Migrator core (jellyfin_migrator.py,
jellyfin_id_scanner.py) against its natural-language specification.
The Python data model and operations are shallowly embedded as executable
Lean definitions; machine details (POSIX path parsing, the subset of the
exception behaviour that the claims touch) are modelled explicitly.
-/

namespace JFM

/-- A value stored in a replacement mapping.  The Python dictionaries
(`path_replacements`, `fs_path_replacements`) map strings to either strings
(destination prefixes, the separator) or booleans (the `log_no_warnings`
flag). -/
inductive MapVal where
  | str (s : String)
  | bool (b : Bool)
deriving DecidableEq, Repr

/-- Python exceptions that the embedded code paths can raise. -/
inductive PyErr where
  | typeError
  | keyError
  | valueError
  | jsonError
deriving DecidableEq, Repr

/-- Python `s.split(sep)` for a single-character separator, over the
character list.  `"".split(c)` yields `[""]`. -/
def splitOnChar (c : Char) : List Char → List (List Char)
  | [] => [[]]
  | x :: xs =>
    if x = c then [] :: splitOnChar c xs
    else
      match splitOnChar c xs with
      | [] => [[x]]
      | h :: t => (x :: h) :: t

/-- Python `sep.join(pieces)`, over character lists. -/
def joinWith (sep : List Char) : List (List Char) → List Char
  | [] => []
  | [l] => l
  | l :: ls => l ++ sep ++ joinWith sep ls

/-- Components of a POSIX path string, as `pathlib.PurePosixPath` parses
them: split on `/`, dropping empty components and `.`. -/
def parseParts (s : String) : List String :=
  ((splitOnChar '/' s.data).filter
    (fun l => !(l.isEmpty) && !(l == ['.']))).map String.mk

/-- A parsed `pathlib.PurePosixPath`: an absolute flag plus the component
list (the root is not stored as a component). -/
structure PPath where
  absolute : Bool
  parts : List String
deriving DecidableEq, Repr

/-- Whether the path string is absolute (begins with a slash). -/
def startsWithSlash (s : String) : Bool :=
  match s.data with
  | '/' :: _ => true
  | _ => false

/-- `pathlib.Path(s)` on a POSIX system. -/
def pathOf (s : String) : PPath :=
  { absolute := startsWithSlash s, parts := parseParts s }

/-- `PurePosixPath.as_posix()`. -/
def asPosix (p : PPath) : String :=
  if p.absolute then "/" ++ String.intercalate "/" p.parts
  else if p.parts.isEmpty then "." else String.intercalate "/" p.parts

/-- `p.is_relative_to(q)`: `q`'s components are a segment-wise prefix of
`p`'s and the two agree on absoluteness. -/
def isRelativeTo (p q : PPath) : Bool :=
  p.absolute == q.absolute && q.parts.isPrefixOf p.parts

/-- `p.relative_to(q)` (meaningful when `isRelativeTo p q`). -/
def relativeTo (p q : PPath) : PPath :=
  { absolute := false, parts := p.parts.drop q.parts.length }

/-- `p / q` for a relative right operand (and replacement by `q` when `q`
is absolute, as in `pathlib`). -/
def joinPath (p q : PPath) : PPath :=
  if q.absolute then q else { absolute := p.absolute, parts := p.parts ++ q.parts }

/-- Python `s.replace("/", slash)` (single-character needle, hence equal to
split-and-rejoin). -/
def replaceSlash (slash : String) (s : String) : String :=
  String.mk (joinWith slash.data (splitOnChar '/' s.data))

/-- The scan of `recursive_root_path_replacer`'s `for src, dst in
to_replace.items()` loop: the first entry whose key is a path-segment
ancestor of `p`. -/
def findMatch (p : PPath) : List (String × MapVal) → Option (String × MapVal)
  | [] => none
  | (src, v) :: rest =>
    if isRelativeTo p (pathOf src) then some (src, v) else findMatch p rest

/-- The `str` / `PurePath` branch of `recursive_root_path_replacer`
(jellyfin_migrator.py lines 480-515).  Try each `(src, dst)` entry of the
ordered mapping in turn; at the first entry whose key is a path-segment
ancestor of the input, compute `dst / (input - src)` and serialize it with
the mapping's `target_path_slash`; if no entry matches, return the input
unchanged.  `dst / ...` with a boolean `dst` raises `TypeError`; a missing
`target_path_slash` key raises `KeyError`.  Returns the value together with
the `(modified, ignored)` counters. -/
def rootPathReplacerStr (d : String) (toReplace : List (String × MapVal)) :
    Except PyErr (String × Nat × Nat) :=
  match findMatch (pathOf d) toReplace with
  | none => .ok (d, 0, 1)
  | some (_src, .bool _) => .error .typeError
  | some (src, .str dst) =>
    match toReplace.lookup "target_path_slash" with
    | none => .error .keyError
    | some (.bool _) => .error .typeError
    | some (.str slash) =>
      .ok (replaceSlash slash
        (asPosix (joinPath (pathOf dst) (relativeTo (pathOf d) (pathOf src)))), 1, 0)

/-- A document as handled by the recursive walker: JSON-like nesting of
dictionaries, lists and scalars.  Non-string scalars other than `None` are
collapsed into `other`; the walker returns both unchanged. -/
inductive Doc where
  | str (s : String)
  | null
  | other
  | dict (entries : List (String × Doc))
  | list (elems : List Doc)
deriving Repr

mutual

/-- `recursive_root_path_replacer` (jellyfin_migrator.py lines 468-515):
recurse into dictionary values and list elements, rewrite string scalars
with `rootPathReplacerStr`, return anything else unchanged.  Counters
bubble up additively. -/
def recursive_root_path_replacer (d : Doc) (m : List (String × MapVal)) :
    Except PyErr (Doc × Nat × Nat) :=
  match d with
  | .dict es => do
    let (es2, mo, ig) ← rrprDict es m
    pure (.dict es2, mo, ig)
  | .list xs => do
    let (xs2, mo, ig) ← rrprList xs m
    pure (.list xs2, mo, ig)
  | .str s => do
    match rootPathReplacerStr s m with
    | .ok (s2, mo, ig) => pure (.str s2, mo, ig)
    | .error e => .error e
  | .null => pure (.null, 0, 0)
  | .other => pure (.other, 0, 0)

/-- Walker over dictionary entries (values only; keys untouched). -/
def rrprDict (es : List (String × Doc)) (m : List (String × MapVal)) :
    Except PyErr (List (String × Doc) × Nat × Nat) :=
  match es with
  | [] => pure ([], 0, 0)
  | (k, v) :: rest => do
    let (v2, mo1, ig1) ← recursive_root_path_replacer v m
    let (rest2, mo2, ig2) ← rrprDict rest m
    pure ((k, v2) :: rest2, mo1 + mo2, ig1 + ig2)

/-- Walker over list elements. -/
def rrprList (xs : List Doc) (m : List (String × MapVal)) :
    Except PyErr (List Doc × Nat × Nat) :=
  match xs with
  | [] => pure ([], 0, 0)
  | x :: rest => do
    let (x2, mo1, ig1) ← recursive_root_path_replacer x m
    let (rest2, mo2, ig2) ← rrprList rest m
    pure (x2 :: rest2, mo1 + mo2, ig1 + ig2)

end

/-- The `fs_path_replacements` dictionary (jellyfin_migrator.py lines
105-114), in insertion order. -/
def fs_path_replacements : List (String × MapVal) :=
  [("log_no_warnings", .bool false),
   ("target_path_slash", .str "/"),
   ("/config", .str "/"),
   ("%AppDataPath%", .str "/data/data"),
   ("%MetadataPath%", .str "/data/metadata")]

theorem findMatch_eq_none {p : PPath} {m : List (String × MapVal)}
    (h : ∀ kv ∈ m, isRelativeTo p (pathOf kv.1) = false) :
    findMatch p m = none := by
  induction m with
  | nil => rfl
  | cons kv rest ih =>
    have h1 := h kv (List.mem_cons_self kv rest)
    simp only [findMatch, h1]
    exact ih (fun kv2 hkv2 => h kv2 (List.mem_cons_of_mem kv hkv2))

theorem findMatch_append_first {p : PPath} {mPre : List (String × MapVal)}
    {src : String} {v : MapVal} (mSuf : List (String × MapVal))
    (hpre : ∀ kv ∈ mPre, isRelativeTo p (pathOf kv.1) = false)
    (hsrc : isRelativeTo p (pathOf src) = true) :
    findMatch p (mPre ++ (src, v) :: mSuf) = some (src, v) := by
  induction mPre with
  | nil => simp [findMatch, hsrc]
  | cons kv rest ih =>
    have h1 := hpre kv (List.mem_cons_self kv rest)
    simp only [List.cons_append, findMatch, h1]
    simp only [Bool.false_eq_true, if_false]
    exact ih (fun kv2 hkv2 => hpre kv2 (List.mem_cons_of_mem kv hkv2))

/-- C2: the path rewriter matches by path-segment ancestry, not textual
prefix.  (a) When no mapping key is a segment-wise ancestor of the scalar
input, the input is returned unchanged (with the `ignored` counter
incremented).  (b) The first entry in insertion order whose key is a
segment-wise ancestor is the one applied: the result is
`dst / (input - src)` re-serialized with the mapping's slash.  (c) In
particular a mapping entry `("/a/b", dst)` never rewrites `"/a/bc/d"`. -/
theorem rootPathReplacer_segment_ancestry :
    (∀ (s : String) (m : List (String × MapVal)),
      (∀ kv ∈ m, isRelativeTo (pathOf s) (pathOf kv.1) = false) →
      rootPathReplacerStr s m = .ok (s, 0, 1)) ∧
    (∀ (s src dst slash : String) (mPre mSuf : List (String × MapVal)),
      (∀ kv ∈ mPre, isRelativeTo (pathOf s) (pathOf kv.1) = false) →
      isRelativeTo (pathOf s) (pathOf src) = true →
      (mPre ++ (src, MapVal.str dst) :: mSuf).lookup "target_path_slash"
        = some (MapVal.str slash) →
      rootPathReplacerStr s (mPre ++ (src, MapVal.str dst) :: mSuf) =
        .ok (replaceSlash slash
          (asPosix (joinPath (pathOf dst) (relativeTo (pathOf s) (pathOf src)))), 1, 0)) ∧
    (∀ dst : String,
      rootPathReplacerStr "/a/bc/d" [("/a/b", MapVal.str dst)] = .ok ("/a/bc/d", 0, 1)) := by
  refine ⟨?_, ?_, ?_⟩
  · intro s m h
    unfold rootPathReplacerStr
    rw [findMatch_eq_none h]
  · intro s src dst slash mPre mSuf hpre hsrc hslash
    unfold rootPathReplacerStr
    rw [findMatch_append_first mSuf hpre hsrc, hslash]
  · intro dst
    unfold rootPathReplacerStr
    have hnone : findMatch (pathOf "/a/bc/d") [("/a/b", MapVal.str dst)] = none := by
      apply findMatch_eq_none
      intro kv hkv
      simp only [List.mem_singleton] at hkv
      subst hkv
      exact (by decide : isRelativeTo (pathOf "/a/bc/d") (pathOf "/a/b") = false)
    rw [hnone]

/-- Witness for C2, instantiating part (b) at the spec's prefix-specificity
example: `/a/b/c.txt` with mapping `[("/a/b","/x"), ("/a","/y")]` rewrites
to `/x/c.txt`. -/
theorem rootPathReplacer_segment_ancestry_witness :
    rootPathReplacerStr "/a/b/c.txt"
      [("/a/b", MapVal.str "/x"), ("/a", MapVal.str "/y"),
       ("target_path_slash", MapVal.str "/")] = .ok ("/x/c.txt", 1, 0) := by
  have h := rootPathReplacer_segment_ancestry.2.1 "/a/b/c.txt" "/a/b" "/x" "/"
    [] [("/a", MapVal.str "/y"), ("target_path_slash", MapVal.str "/")]
    (by intro kv hkv; simp at hkv) (by decide) (by decide)
  exact h

/-- C10: the rewriter iterates every key of the mapping, including the
control keys.  On `fs_path_replacements`, the scalar `"target_path_slash"`
is itself matched by its own control entry and rewritten to the separator
string, and the scalar `"log_no_warnings"` matches the boolean-valued
control entry, reaching the `TypeError` branch. -/
theorem control_keys_are_candidate_prefixes :
    rootPathReplacerStr "target_path_slash" fs_path_replacements = .ok ("/", 1, 0) ∧
    rootPathReplacerStr "log_no_warnings" fs_path_replacements = .error .typeError := by
  constructor <;> rfl

/-! ### Ancestor-id conversion (jellyfin_id_scanner.py) -/

/-- `[id[i : i+2] for i in range(0, len(id), 2)]`: group the characters of
the id string into consecutive pairs (a trailing odd character forms a
one-character group). -/
def chunk2 : List Char → List (List Char)
  | [] => []
  | [a] => [[a]]
  | a :: b :: rest => [a, b] :: chunk2 rest

/-- `convert_ancestor_id` (jellyfin_id_scanner.py lines 29-39): group the
hex string into byte pairs, reorder the first eight pairs by the fixed
permutation `(3, 2, 1, 0, 5, 4, 7, 6)`, keep the remaining pairs, and
re-join.  Python list indexing raises `IndexError` when fewer than eight
pairs exist; that case is modelled by `none`. -/
def convert_ancestor_id (s : List Char) : Option (List Char) :=
  match chunk2 s with
  | c0 :: c1 :: c2 :: c3 :: c4 :: c5 :: c6 :: c7 :: rest =>
    some (List.flatten ([c3, c2, c1, c0, c5, c4, c7, c6] ++ rest))
  | _ => none

theorem cons_of_length_succ {α : Type} {l : List α} {n : Nat}
    (h : l.length = n + 1) : ∃ a t, l = a :: t ∧ t.length = n := by
  cases l with
  | nil => simp at h
  | cons a t => exact ⟨a, t, rfl, by simpa using h⟩

/-- C7: the ancestor conversion is an involution on 32-character
identifier strings: converting twice returns the original. -/
theorem convert_ancestor_id_involutive (s : List Char) (h : s.length = 32) :
    (convert_ancestor_id s).bind convert_ancestor_id = some s := by
  obtain ⟨c1, t1, e1, h1⟩ := cons_of_length_succ h
  subst e1
  obtain ⟨c2, t2, e2, h2⟩ := cons_of_length_succ h1
  subst e2
  obtain ⟨c3, t3, e3, h3⟩ := cons_of_length_succ h2
  subst e3
  obtain ⟨c4, t4, e4, h4⟩ := cons_of_length_succ h3
  subst e4
  obtain ⟨c5, t5, e5, h5⟩ := cons_of_length_succ h4
  subst e5
  obtain ⟨c6, t6, e6, h6⟩ := cons_of_length_succ h5
  subst e6
  obtain ⟨c7, t7, e7, h7⟩ := cons_of_length_succ h6
  subst e7
  obtain ⟨c8, t8, e8, h8⟩ := cons_of_length_succ h7
  subst e8
  obtain ⟨c9, t9, e9, h9⟩ := cons_of_length_succ h8
  subst e9
  obtain ⟨c10, t10, e10, h10⟩ := cons_of_length_succ h9
  subst e10
  obtain ⟨c11, t11, e11, h11⟩ := cons_of_length_succ h10
  subst e11
  obtain ⟨c12, t12, e12, h12⟩ := cons_of_length_succ h11
  subst e12
  obtain ⟨c13, t13, e13, h13⟩ := cons_of_length_succ h12
  subst e13
  obtain ⟨c14, t14, e14, h14⟩ := cons_of_length_succ h13
  subst e14
  obtain ⟨c15, t15, e15, h15⟩ := cons_of_length_succ h14
  subst e15
  obtain ⟨c16, t16, e16, h16⟩ := cons_of_length_succ h15
  subst e16
  obtain ⟨c17, t17, e17, h17⟩ := cons_of_length_succ h16
  subst e17
  obtain ⟨c18, t18, e18, h18⟩ := cons_of_length_succ h17
  subst e18
  obtain ⟨c19, t19, e19, h19⟩ := cons_of_length_succ h18
  subst e19
  obtain ⟨c20, t20, e20, h20⟩ := cons_of_length_succ h19
  subst e20
  obtain ⟨c21, t21, e21, h21⟩ := cons_of_length_succ h20
  subst e21
  obtain ⟨c22, t22, e22, h22⟩ := cons_of_length_succ h21
  subst e22
  obtain ⟨c23, t23, e23, h23⟩ := cons_of_length_succ h22
  subst e23
  obtain ⟨c24, t24, e24, h24⟩ := cons_of_length_succ h23
  subst e24
  obtain ⟨c25, t25, e25, h25⟩ := cons_of_length_succ h24
  subst e25
  obtain ⟨c26, t26, e26, h26⟩ := cons_of_length_succ h25
  subst e26
  obtain ⟨c27, t27, e27, h27⟩ := cons_of_length_succ h26
  subst e27
  obtain ⟨c28, t28, e28, h28⟩ := cons_of_length_succ h27
  subst e28
  obtain ⟨c29, t29, e29, h29⟩ := cons_of_length_succ h28
  subst e29
  obtain ⟨c30, t30, e30, h30⟩ := cons_of_length_succ h29
  subst e30
  obtain ⟨c31, t31, e31, h31⟩ := cons_of_length_succ h30
  subst e31
  obtain ⟨c32, t32, e32, h32⟩ := cons_of_length_succ h31
  subst e32
  rw [List.length_eq_zero] at h32
  subst h32
  rfl

/-- Witness for C7 at the id string documented in the scanner source. -/
theorem convert_ancestor_id_involutive_witness :
    "833addde992893e93d0572907f8b4cad".data.length = 32 ∧
    (convert_ancestor_id "833addde992893e93d0572907f8b4cad".data).bind
      convert_ancestor_id = some "833addde992893e93d0572907f8b4cad".data :=
  ⟨by decide, convert_ancestor_id_involutive _ (by decide)⟩

/-! ### Image-descriptor codec (update_db_table, jf_image columns) -/

/-- The jf-image-column body of `update_db_table` (jellyfin_migrator.py
lines 703-716): split the descriptor on `|`; keep empty entries; split
each non-empty entry on `*`; pass the first field (the path) through the
leaf transformer `f`; re-join fields with `*` and entries with `|`. -/
def jfImageTransform (f : List Char → List Char) (imgs : List Char) : List Char :=
  joinWith ['|']
    ((splitOnChar '|' imgs).map (fun entry =>
      if entry.isEmpty then entry
      else
        match splitOnChar '*' entry with
        | [] => entry
        | p :: props => joinWith ['*'] (f p :: props)))

theorem splitOnChar_ne_nil (c : Char) (l : List Char) : splitOnChar c l ≠ [] := by
  cases l with
  | nil => simp [splitOnChar]
  | cons x xs =>
    by_cases hx : x = c
    · simp [splitOnChar, hx]
    · simp only [splitOnChar, if_neg hx]
      cases splitOnChar c xs <;> simp

theorem joinWith_cons_cons (sep : List Char) (x : Char) (h : List Char)
    (t : List (List Char)) :
    joinWith sep ((x :: h) :: t) = x :: joinWith sep (h :: t) := by
  cases t <;> rfl

/-- Rejoining the pieces of a single-character split restores the input. -/
theorem joinWith_splitOnChar (c : Char) (l : List Char) :
    joinWith [c] (splitOnChar c l) = l := by
  induction l with
  | nil => rfl
  | cons x xs ih =>
    by_cases hx : x = c
    · subst hx
      obtain ⟨h, t, hht⟩ : ∃ h t, splitOnChar x xs = h :: t := by
        cases hsp : splitOnChar x xs with
        | nil => exact absurd hsp (splitOnChar_ne_nil x xs)
        | cons h t => exact ⟨h, t, rfl⟩
      rw [hht] at ih
      simp only [splitOnChar, if_pos rfl, hht]
      show x :: joinWith [x] (h :: t) = x :: xs
      rw [ih]
    · obtain ⟨h, t, hht⟩ : ∃ h t, splitOnChar c xs = h :: t := by
        cases hsp : splitOnChar c xs with
        | nil => exact absurd hsp (splitOnChar_ne_nil c xs)
        | cons h t => exact ⟨h, t, rfl⟩
      rw [hht] at ih
      simp only [splitOnChar, if_neg hx, hht]
      rw [joinWith_cons_cons, ih]

/-- No piece of a single-character split contains the separator. -/
theorem splitOnChar_not_mem (c : Char) (l : List Char) :
    ∀ x ∈ splitOnChar c l, c ∉ x := by
  induction l with
  | nil =>
    intro x hx
    simp [splitOnChar] at hx
    simp [hx]
  | cons a as ih =>
    by_cases ha : a = c
    · subst ha
      intro x hx
      simp only [splitOnChar, if_pos rfl] at hx
      rcases List.mem_cons.mp hx with h1 | h1
      · simp [h1]
      · exact ih x h1
    · intro x hx
      simp only [splitOnChar, if_neg ha] at hx
      cases hsp : splitOnChar c as with
      | nil => exact absurd hsp (splitOnChar_ne_nil c as)
      | cons h t =>
        rw [hsp] at hx
        rcases List.mem_cons.mp hx with h1 | h1
        · subst h1
          intro hc
          rcases List.mem_cons.mp hc with h2 | h2
          · exact ha h2.symm
          · exact ih h (by rw [hsp]; exact List.mem_cons_self h t) h2
        · exact ih x (by rw [hsp]; exact List.mem_cons_of_mem h h1)

/-- Every character of a split piece comes from the original list. -/
theorem splitOnChar_piece_subset (c : Char) (l : List Char) :
    ∀ x ∈ splitOnChar c l, ∀ a ∈ x, a ∈ l := by
  induction l with
  | nil =>
    intro x hx a ha
    simp [splitOnChar] at hx
    subst hx
    simp at ha
  | cons b bs ih =>
    by_cases hb : b = c
    · subst hb
      intro x hx a ha
      simp only [splitOnChar, if_pos rfl] at hx
      rcases List.mem_cons.mp hx with h1 | h1
      · subst h1; simp at ha
      · exact List.mem_cons_of_mem b (ih x h1 a ha)
    · intro x hx a ha
      simp only [splitOnChar, if_neg hb] at hx
      cases hsp : splitOnChar c bs with
      | nil => exact absurd hsp (splitOnChar_ne_nil c bs)
      | cons h t =>
        rw [hsp] at hx
        rcases List.mem_cons.mp hx with h1 | h1
        · subst h1
          rcases List.mem_cons.mp ha with h2 | h2
          · simp [h2]
          · exact List.mem_cons_of_mem b
              (ih h (by rw [hsp]; exact List.mem_cons_self h t) a h2)
        · exact List.mem_cons_of_mem b (ih x (by rw [hsp]; exact List.mem_cons_of_mem h h1) a ha)

/-- A separator-free list splits into a single piece. -/
theorem splitOnChar_eq_single (c : Char) (x : List Char) (hx : c ∉ x) :
    splitOnChar c x = [x] := by
  induction x with
  | nil => rfl
  | cons a as ih =>
    have ha : a ≠ c := fun hac => hx (by simp [hac])
    have has : c ∉ as := fun h2 => hx (List.mem_cons_of_mem a h2)
    simp only [splitOnChar, if_neg ha, ih has]

/-- Splitting a separator-free piece followed by the separator peels off
that piece. -/
theorem splitOnChar_append_sep (c : Char) (x rest : List Char) (hx : c ∉ x) :
    splitOnChar c (x ++ c :: rest) = x :: splitOnChar c rest := by
  induction x with
  | nil => simp [splitOnChar]
  | cons a as ih =>
    have ha : a ≠ c := fun hac => hx (by simp [hac])
    have has : c ∉ as := fun h2 => hx (List.mem_cons_of_mem a h2)
    have step : splitOnChar c ((a :: as) ++ c :: rest) =
        match splitOnChar c (as ++ c :: rest) with
        | [] => [[a]]
        | h :: t => (a :: h) :: t := by
      simp only [List.cons_append, splitOnChar, if_neg ha]
      rfl
    rw [step, ih has]

/-- Splitting after a join with a fresh separator recovers the pieces. -/
theorem splitOnChar_joinWith (c : Char) (ls : List (List Char))
    (hne : ls ≠ []) (hfree : ∀ x ∈ ls, c ∉ x) :
    splitOnChar c (joinWith [c] ls) = ls := by
  induction ls with
  | nil => exact absurd rfl hne
  | cons x rest ih =>
    cases rest with
    | nil => exact splitOnChar_eq_single c x (hfree x (List.mem_cons_self x []))
    | cons y t =>
      have hx : c ∉ x := hfree x (List.mem_cons_self x (y :: t))
      have hrest : splitOnChar c (joinWith [c] (y :: t)) = y :: t :=
        ih (by simp) (fun z hz => hfree z (List.mem_cons_of_mem x hz))
      show splitOnChar c (x ++ [c] ++ joinWith [c] (y :: t)) = x :: y :: t
      rw [List.append_assoc]
      have hshape : [c] ++ joinWith [c] (y :: t) = c :: joinWith [c] (y :: t) := rfl
      rw [hshape, splitOnChar_append_sep c x _ hx, hrest]

/-- A character distinct from the separator and absent from every piece is
absent from the join. -/
theorem not_mem_joinWith (c d : Char) (ls : List (List Char)) (hcd : c ≠ d)
    (h : ∀ x ∈ ls, c ∉ x) : c ∉ joinWith [d] ls := by
  induction ls with
  | nil => simp [joinWith]
  | cons x rest ih =>
    cases rest with
    | nil => exact h x (by simp)
    | cons y t =>
      show c ∉ x ++ [d] ++ joinWith [d] (y :: t)
      intro hmem
      rcases List.mem_append.mp hmem with h1 | h1
      · rcases List.mem_append.mp h1 with h2 | h2
        · exact h x (by simp) h2
        · simp at h2
          exact hcd h2
      · exact ih (fun z hz => h z (List.mem_cons_of_mem x hz)) h1

/-- C6: the image-descriptor transformation.  (a) With an identity leaf
transform it reproduces the descriptor byte-for-byte.  (b) When the leaf
transform emits no separator characters, re-parsing the output gives the
same entry structure: empty entries stay empty, and each non-empty entry
re-parses to the transformed path followed by the original fields. -/
theorem jf_image_descriptor_roundtrip :
    (∀ (f : List Char → List Char), (∀ s, f s = s) →
      ∀ imgs, jfImageTransform f imgs = imgs) ∧
    (∀ (f : List Char → List Char), (∀ s, '|' ∉ f s ∧ '*' ∉ f s) →
      ∀ imgs,
        splitOnChar '|' (jfImageTransform f imgs) =
          (splitOnChar '|' imgs).map (fun entry =>
            if entry.isEmpty then entry
            else
              match splitOnChar '*' entry with
              | [] => entry
              | p :: props => joinWith ['*'] (f p :: props)) ∧
        (∀ entry ∈ splitOnChar '|' imgs, ¬entry.isEmpty →
          ∃ p props, splitOnChar '*' entry = p :: props ∧
            splitOnChar '*' (joinWith ['*'] (f p :: props)) = f p :: props)) := by
  constructor
  · intro f hf imgs
    unfold jfImageTransform
    have hmap : (splitOnChar '|' imgs).map (fun entry =>
        if entry.isEmpty then entry
        else
          match splitOnChar '*' entry with
          | [] => entry
          | p :: props => joinWith ['*'] (f p :: props)) = splitOnChar '|' imgs := by
      have hcongr : ∀ entry ∈ splitOnChar '|' imgs,
          (if entry.isEmpty then entry
           else
             match splitOnChar '*' entry with
             | [] => entry
             | p :: props => joinWith ['*'] (f p :: props)) = entry := by
        intro entry _
        by_cases he : entry.isEmpty
        · simp [he]
        · simp only [he, Bool.false_eq_true, if_false]
          cases hsp : splitOnChar '*' entry with
          | nil => rfl
          | cons p props =>
            show joinWith ['*'] (f p :: props) = entry
            rw [hf p, ← hsp, joinWith_splitOnChar]
      calc (splitOnChar '|' imgs).map _
          = (splitOnChar '|' imgs).map id := List.map_congr_left hcongr
        _ = splitOnChar '|' imgs := List.map_id _
    rw [hmap, joinWith_splitOnChar]
  · intro f hf imgs
    constructor
    · unfold jfImageTransform
      apply splitOnChar_joinWith
      · intro hcontra
        exact splitOnChar_ne_nil '|' imgs (List.map_eq_nil_iff.mp hcontra)
      · intro x hx
        obtain ⟨entry, hentry, hx⟩ := List.mem_map.mp hx
        subst hx
        by_cases he : entry.isEmpty
        · simp only [he, if_true]
          intro hmem
          rw [List.isEmpty_iff] at he
          rw [he] at hmem
          simp at hmem
        · simp only [he, Bool.false_eq_true, if_false]
          cases hsp : splitOnChar '*' entry with
          | nil => exact splitOnChar_not_mem '|' imgs entry hentry
          | cons p props =>
            show '|' ∉ joinWith ['*'] (f p :: props)
            apply not_mem_joinWith '|' '*' _ (by decide)
            intro z hz
            rcases List.mem_cons.mp hz with h1 | h1
            · subst h1; exact (hf p).1
            · intro hc
              exact splitOnChar_not_mem '|' imgs entry hentry
                (splitOnChar_piece_subset '*' entry z
                  (by rw [hsp]; exact List.mem_cons_of_mem p h1) '|' hc)
    · intro entry hentry hne
      cases hsp : splitOnChar '*' entry with
      | nil => exact absurd hsp (splitOnChar_ne_nil '*' entry)
      | cons p props =>
        refine ⟨p, props, rfl, ?_⟩
        apply splitOnChar_joinWith
        · simp
        · intro x hx
          rcases List.mem_cons.mp hx with h1 | h1
          · subst h1; exact (hf p).2
          · exact fun hc => splitOnChar_not_mem '*' entry x
              (by rw [hsp]; exact List.mem_cons_of_mem p h1) hc

/-! ### Identifier derivation: UTF-16LE encoding, MD5 (the hashlib
collaborator of `get_dotnet_MD5`, modelled from RFC 1321), hex codec -/

def w32 : Nat := 4294967296

/-- Bitwise AND of 32-bit words, by structural recursion over 32 bit
positions so that concrete digests evaluate inside the kernel. -/
def landAux : Nat → Nat → Nat → Nat
  | 0, _, _ => 0
  | fuel + 1, n, m =>
    (if n % 2 = 1 then if m % 2 = 1 then 1 else 0 else 0) + 2 * landAux fuel (n / 2) (m / 2)

def land32 (n m : Nat) : Nat := landAux 32 n m

/-- Bitwise OR of 32-bit words. -/
def lorAux : Nat → Nat → Nat → Nat
  | 0, _, _ => 0
  | fuel + 1, n, m =>
    (if n % 2 = 1 ∨ m % 2 = 1 then 1 else 0) + 2 * lorAux fuel (n / 2) (m / 2)

def lor32 (n m : Nat) : Nat := lorAux 32 n m

/-- Bitwise XOR of 32-bit words. -/
def lxorAux : Nat → Nat → Nat → Nat
  | 0, _, _ => 0
  | fuel + 1, n, m =>
    (if n % 2 = m % 2 then 0 else 1) + 2 * lxorAux fuel (n / 2) (m / 2)

def lxor32 (n m : Nat) : Nat := lxorAux 32 n m

/-- Bitwise NOT within 32 bits. -/
def lnot32 (n : Nat) : Nat := (w32 - 1) - n % w32

/-- Addition modulo `2^32`. -/
def addw (a b : Nat) : Nat := (a + b) % w32

/-- Left rotation of a 32-bit word by `n` places. -/
def rotl32 (x n : Nat) : Nat :=
  (x % w32 * 2 ^ n + x % w32 / 2 ^ (32 - n)) % w32

/-- The MD5 per-round shift amounts (RFC 1321). -/
def md5S : List Nat :=
  [7, 12, 17, 22, 7, 12, 17, 22, 7, 12, 17, 22, 7, 12, 17, 22, 5, 9, 14, 20, 5, 9, 14, 20, 5, 9, 14, 20, 5, 9, 14, 20, 4, 11, 16, 23, 4, 11, 16, 23, 4, 11, 16, 23, 4, 11, 16, 23, 6, 10, 15, 21, 6, 10, 15, 21, 6, 10, 15, 21, 6, 10, 15, 21]

/-- The MD5 sine-derived constant table (RFC 1321). -/
def md5K : List Nat :=
  [3614090360, 3905402710, 606105819, 3250441966, 4118548399, 1200080426, 2821735955, 4249261313,
   1770035416, 2336552879, 4294925233, 2304563134, 1804603682, 4254626195, 2792965006, 1236535329,
   4129170786, 3225465664, 643717713, 3921069994, 3593408605, 38016083, 3634488961, 3889429448,
   568446438, 3275163606, 4107603335, 1163531501, 2850285829, 4243563512, 1735328473, 2368359562,
   4294588738, 2272392833, 1839030562, 4259657740, 2763975236, 1272893353, 4139469664, 3200236656,
   681279174, 3936430074, 3572445317, 76029189, 3654602809, 3873151461, 530742520, 3299628645,
   4096336452, 1126891415, 2878612391, 4237533241, 1700485571, 2399980690, 4293915773, 2240044497,
   1873313359, 4264355552, 2734768916, 1309151649, 4149444226, 3174756917, 718787259, 3951481745]

/-- The MD5 round mixing function. -/
def md5F (i b c d : Nat) : Nat :=
  if i < 16 then lor32 (land32 b c) (land32 (lnot32 b) d)
  else if i < 32 then lor32 (land32 d b) (land32 (lnot32 d) c)
  else if i < 48 then lxor32 b (lxor32 c d)
  else lxor32 c (lor32 b (lnot32 d))

/-- The MD5 message-word index schedule. -/
def md5G (i : Nat) : Nat :=
  if i < 16 then i
  else if i < 32 then (5 * i + 1) % 16
  else if i < 48 then (3 * i + 5) % 16
  else (7 * i) % 16

/-- One of the 64 MD5 rounds. -/
def md5Step (words : List Nat) (st : Nat × Nat × Nat × Nat) (i : Nat) :
    Nat × Nat × Nat × Nat :=
  let t := addw (addw st.1 (md5F i st.2.1 st.2.2.1 st.2.2.2))
    (addw (md5K.getD i 0) (words.getD (md5G i) 0))
  (st.2.2.2, addw st.2.1 (rotl32 t (md5S.getD i 0)), st.2.1, st.2.2.1)

/-- Little-endian 32-bit words from a byte stream. -/
def toWordsLE : List Nat → List Nat
  | b0 :: b1 :: b2 :: b3 :: rest =>
    (b0 + 256 * b1 + 65536 * b2 + 16777216 * b3) :: toWordsLE rest
  | _ => []

/-- Compress one 64-byte block into the state. -/
def md5Compress (st : Nat × Nat × Nat × Nat) (block : List Nat) :
    Nat × Nat × Nat × Nat :=
  let w := toWordsLE block
  let r := (List.range 64).foldl (md5Step w) st
  (addw st.1 r.1, addw st.2.1 r.2.1, addw st.2.2.1 r.2.2.1, addw st.2.2.2 r.2.2.2)

/-- Split the padded message into 64-byte blocks (fuel-driven so the
recursion is structural; the fuel `l.length` always suffices). -/
def chunk64F : Nat → List Nat → List (List Nat)
  | _, [] => []
  | 0, l => [l]
  | fuel + 1, l => l.take 64 :: chunk64F fuel (l.drop 64)

def chunk64 (l : List Nat) : List (List Nat) := chunk64F l.length l

def md5Init : Nat × Nat × Nat × Nat := (1732584193, 4023233417, 2562383102, 271733878)

/-- The four little-endian bytes of a 32-bit word. -/
def wordBytesLE (w : Nat) : List Nat :=
  [w % 256, w / 256 % 256, w / 65536 % 256, w / 16777216 % 256]

/-- RFC 1321 padding: `0x80`, zeros to 56 mod 64, 8-byte little-endian bit
length. -/
def padMessage (msg : List Nat) : List Nat :=
  let z := (120 - (msg.length + 1) % 64) % 64
  let bitLen := 8 * msg.length % 2 ^ 64
  msg ++ 128 :: (List.replicate z 0 ++
    [bitLen % 256, bitLen / 256 % 256, bitLen / 65536 % 256, bitLen / 16777216 % 256,
     bitLen / 4294967296 % 256, bitLen / 1099511627776 % 256,
     bitLen / 281474976710656 % 256, bitLen / 72057594037927936 % 256])

/-- The MD5 digest (16 bytes) of a byte list. -/
def md5 (msg : List Nat) : List Nat :=
  let st := (chunk64 (padMessage msg)).foldl md5Compress md5Init
  wordBytesLE st.1 ++ wordBytesLE st.2.1 ++ wordBytesLE st.2.2.1 ++ wordBytesLE st.2.2.2

/-- Python `s.encode("utf-16-le")` for one character: code points below
`0x10000` become two little-endian bytes, the rest a surrogate pair. -/
def utf16leChar (c : Char) : List Nat :=
  let n := c.toNat
  if n < 65536 then [n % 256, n / 256]
  else
    [(55296 + (n - 65536) / 1024) % 256, (55296 + (n - 65536) / 1024) / 256,
     (56320 + (n - 65536) % 1024) % 256, (56320 + (n - 65536) % 1024) / 256]

/-- Python `s.encode("utf-16-le")`. -/
def utf16le (s : String) : List Nat := (s.data.map utf16leChar).flatten

/-- `get_dotnet_MD5` (jellyfin_migrator.py lines 1004-1005):
`hashlib.md5(s.encode("utf-16-le")).digest()`. -/
def get_dotnet_MD5 (s : String) : List Nat := md5 (utf16le s)

/-- The per-row id computation of `get_ids` (jellyfin_migrator.py line
1081): `new_guid = get_dotnet_MD5(item_type + path)`, concatenating the
decoded strings before encoding. -/
def get_ids_new_guid (itemType path : String) : List Nat :=
  get_dotnet_MD5 (itemType ++ path)

/-- One lowercase hexadecimal digit. -/
def hexDigitChar (n : Nat) : Char :=
  if n < 10 then Char.ofNat (48 + n) else Char.ofNat (87 + n)

/-- `bid2sid` (jellyfin_id_scanner.py line 41): binary id to lowercase hex
string, as `binascii.b2a_hex`. -/
def bid2sid (bs : List Nat) : String :=
  String.mk ((bs.map (fun b => [hexDigitChar (b / 16), hexDigitChar (b % 16)])).flatten)

/-- C1 counterexample: the hash input for type `"Movie"` and path
`"/data/movies/x.mkv"` is the 46-byte UTF-16LE encoding of
`"Movie/data/movies/x.mkv"` (23 characters, two bytes each), not a
34-byte encoding as the claim states. -/
theorem new_id_hash_input_not_34_bytes :
    (utf16le ("Movie" ++ "/data/movies/x.mkv")).length = 46 ∧
    (utf16le ("Movie" ++ "/data/movies/x.mkv")).length ≠ 34 := by
  constructor <;> decide

set_option maxRecDepth 16000 in
/-- C1 (amended): the derived identifier is the MD5 digest of the UTF-16LE
encoding of the type string concatenated with the path string (decoded
strings concatenated before encoding); for type `"Movie"` and path
`"/data/movies/x.mkv"` the hash input is the explicit 46-byte UTF-16LE
encoding of `"Movie/data/movies/x.mkv"`, the digest is the fixed 16-byte
value below with `str` form its lowercase hex; every digest consists of 16
bytes below 256, and the hex codec emits two lowercase hex digits per
byte. -/
theorem new_id_md5_of_utf16le :
    (∀ itemType path : String,
      get_ids_new_guid itemType path = md5 (utf16le (itemType ++ path))) ∧
    utf16le ("Movie" ++ "/data/movies/x.mkv") =
      [77, 0, 111, 0, 118, 0, 105, 0, 101, 0, 47, 0, 100, 0, 97, 0, 116, 0,
       97, 0, 47, 0, 109, 0, 111, 0, 118, 0, 105, 0, 101, 0, 115, 0, 47, 0,
       120, 0, 46, 0, 109, 0, 107, 0, 118, 0] ∧
    utf16le ("Movie" ++ "/data/movies/x.mkv") = utf16le "Movie/data/movies/x.mkv" ∧
    get_ids_new_guid "Movie" "/data/movies/x.mkv" =
      [3, 70, 62, 117, 179, 18, 149, 50, 223, 14, 60, 161, 38, 179, 219, 148] ∧
    bid2sid (get_ids_new_guid "Movie" "/data/movies/x.mkv") =
      "03463e75b3129532df0e3ca126b3db94" ∧
    (∀ msg : List Nat, (md5 msg).length = 16) ∧
    (∀ msg : List Nat, ∀ b ∈ md5 msg, b < 256) ∧
    (∀ bs : List Nat, (bid2sid bs).data.length = 2 * bs.length) ∧
    (∀ bs : List Nat, (∀ b ∈ bs, b < 256) →
      ∀ ch ∈ (bid2sid bs).data, ch ∈ "0123456789abcdef".data) := by
  refine ⟨fun _ _ => rfl, by decide, rfl, by decide, by decide, ?_, ?_, ?_, ?_⟩
  · intro msg
    simp [md5, wordBytesLE]
  · intro msg b hb
    simp only [md5, wordBytesLE, List.append_assoc, List.mem_append,
      List.mem_cons, List.not_mem_nil, or_false] at hb
    rcases hb with (rfl|rfl|rfl|rfl)|(rfl|rfl|rfl|rfl)|(rfl|rfl|rfl|rfl)|(rfl|rfl|rfl|rfl) <;>
      exact Nat.mod_lt _ (by norm_num)
  · intro bs
    show ((bs.map fun b => [hexDigitChar (b / 16), hexDigitChar (b % 16)]).flatten).length
      = 2 * bs.length
    induction bs with
    | nil => rfl
    | cons b rest ih =>
      simp only [List.map_cons, List.flatten_cons, List.length_append, ih]
      simp
      omega
  · intro bs hlt ch hch
    have hmem : ch ∈ (bs.map fun b => [hexDigitChar (b / 16), hexDigitChar (b % 16)]).flatten := hch
    rw [List.mem_flatten] at hmem
    obtain ⟨l, hl, hchl⟩ := hmem
    rw [List.mem_map] at hl
    obtain ⟨b, hb, rfl⟩ := hl
    have hb256 : b < 256 := hlt b hb
    have hdigit : ∀ n : Nat, n < 16 → hexDigitChar n ∈ "0123456789abcdef".data := by
      intro n hn
      interval_cases n <;> decide
    rcases List.mem_cons.mp hchl with rfl | h2
    · exact hdigit _ ((Nat.div_lt_iff_lt_mul (by norm_num)).mpr hb256)
    · rcases List.mem_cons.mp h2 with rfl | h3
      · exact hdigit _ (Nat.mod_lt _ (by norm_num))
      · simp at h3

set_option maxRecDepth 16000 in
/-- Witness for C1: the quantified byte-bound conjunct at the digest of the
example input and its first byte. -/
theorem new_id_md5_of_utf16le_witness :
    3 ∈ md5 (utf16le ("Movie" ++ "/data/movies/x.mkv")) ∧ 3 < 256 :=
  ⟨by decide, new_id_md5_of_utf16le.2.2.2.2.2.2.1
    (utf16le ("Movie" ++ "/data/movies/x.mkv")) 3 (by decide)⟩

/-! ### The id scanner's text-column probe (jellyfin_id_scanner.py) -/

/-- The character class `"0123456789abcdef-"` used for id candidates. -/
def hexDashChars : List Char := "0123456789abcdef-".data

def isHexDashChar (c : Char) : Bool := hexDashChars.contains c

/-- `get_id_candidates` (jellyfin_id_scanner.py lines 182-196) on a text
value: replace every character outside `[0-9a-f-]` by a space, tag the
value `pure` when nothing was replaced and `embedded` otherwise, split on
spaces and keep the distinct pieces of length at least 32. -/
def get_id_candidates (s : String) : String × List String :=
  let masked := s.data.map (fun c => if isHexDashChar c then c else ' ')
  ((if masked = s.data then "pure" else "embedded"),
   (((splitOnChar ' ' masked).filter (fun p => 32 ≤ p.length)).map String.mk).dedup)

/-- Python `set.add`: append only when absent (order irrelevant, kept for
determinism). -/
def insertNew (x : String) (l : List String) : List String :=
  if l.contains x then l else l ++ [x]

/-- The innermost loop of `check_embedded_id_types` (lines 164-171): probe
one id value against the column's candidate sets; the pre-existing flag is
NOT reset, so a set flag stops the scan after the first candidate set. -/
def ceitCols (idType value : String) (cols : List (String × List String))
    (acc : List String) (flag : Bool) : List String × Bool :=
  match cols with
  | [] => (acc, flag)
  | (ctype, cvals) :: rest =>
    let hit := cvals.contains value
    let acc2 := if hit then insertNew (idType ++ " (" ++ ctype ++ ")") acc else acc
    let flag2 := if hit then true else flag
    if flag2 then (acc2, flag2) else ceitCols idType value rest acc2 flag2

/-- The middle loop of `check_embedded_id_types`: iterate the variant's id
values, stopping as soon as the flag is set. -/
def ceitVals (idType : String) (values : List String)
    (cols : List (String × List String)) (acc : List String) (flag : Bool) :
    List String × Bool :=
  match values with
  | [] => (acc, flag)
  | v :: rest =>
    let r := ceitCols idType v cols acc flag
    if r.2 then r else ceitVals idType rest cols r.1 r.2

/-- The outer loop of `check_embedded_id_types`: iterate the id variants.
`check_for_next_type` is carried over unchanged from one variant to the
next (it is never reset in the source). -/
def ceitTypes (ids : List (String × List String))
    (cols : List (String × List String)) (acc : List String) (flag : Bool) :
    List String :=
  match ids with
  | [] => acc
  | (idType, values) :: rest =>
    let r := ceitVals idType values cols acc flag
    ceitTypes rest cols r.1 r.2

/-- `check_embedded_id_types` (jellyfin_id_scanner.py lines 159-176). -/
def check_embedded_id_types (ids : List (String × List String))
    (columnValues : List (String × List String)) : List String :=
  ceitTypes ids columnValues [] false

/-- The text-column pipeline of the scanner's `main` (lines 233-241):
reduce each raw value to its tag and candidate set, drop values without
candidates, then run `check_embedded_id_types`. -/
def scanTextColumn (ids : List (String × List String)) (raw : List String) :
    List String :=
  check_embedded_id_types ids
    ((raw.map get_id_candidates).filter (fun tc => !tc.2.isEmpty))

/-- C5 (code bug): with variant `str` holding id `A = "a"*32` and variant
`str-dash` holding id `B = "b"*8 ++ "-" ++ ...`, and a column whose first
value embeds `A` and whose second value is exactly `B`, the scanner reports
only `str (embedded)`.  `B` is a candidate of the second value with tag
`pure`, yet `str-dash` is not reported: the `check_for_next_type` flag is
never reset between variants, so after one variant is confirmed every later
variant is probed against the first candidate set only. -/
theorem scanner_misses_present_variant :
    scanTextColumn
      [("str", ["aaaaaaaaaaaaaaaaaaaaaaaaaaaaaaaa"]),
       ("str-dash", ["bbbbbbbb-bbbb-bbbb-bbbb-bbbbbbbbbbbb"])]
      ["zzaaaaaaaaaaaaaaaaaaaaaaaaaaaaaaaazz",
       "bbbbbbbb-bbbb-bbbb-bbbb-bbbbbbbbbbbb"]
      = ["str (embedded)"] ∧
    get_id_candidates "bbbbbbbb-bbbb-bbbb-bbbb-bbbbbbbbbbbb"
      = ("pure", ["bbbbbbbb-bbbb-bbbb-bbbb-bbbbbbbbbbbb"]) ∧
    "str-dash (pure)" ∉
      scanTextColumn
        [("str", ["aaaaaaaaaaaaaaaaaaaaaaaaaaaaaaaa"]),
         ("str-dash", ["bbbbbbbb-bbbb-bbbb-bbbb-bbbbbbbbbbbb"])]
        ["zzaaaaaaaaaaaaaaaaaaaaaaaaaaaaaaaazz",
         "bbbbbbbb-bbbb-bbbb-bbbb-bbbbbbbbbbbb"] := by
  refine ⟨by decide, by decide, by decide⟩

/-! ### The id-rewrite pass on a relational table (update_db_table_ids) -/

/-- A relational table: a list of rows plus an optional unique index over
the listed column positions.  Modelled from the spec: the row-oriented SQL
interface is an out-of-core collaborator. -/
structure Table (α : Type) where
  rows : List (List α)
  uniqueCols : Option (List Nat)
deriving DecidableEq, Repr

/-- `true` when the list contains two equal elements. -/
def hasDup {β : Type} [DecidableEq β] : List β → Bool
  | [] => false
  | x :: xs => xs.contains x || hasDup xs

/-- Modelled from the spec: `UPDATE t SET c = ? WHERE c = ?` through the
driver.  Every row whose column `c` equals `old` gets `new` there; if the
updated rows violate the unique index, the statement raises
`IntegrityError` and leaves the table unchanged (the driver aborts and
rolls back the failed statement). -/
def executeUpdateWhere {α : Type} [DecidableEq α] (t : Table α) (c : Nat)
    (new old : α) : Except Unit (Table α) :=
  let rows2 := t.rows.map (fun r => if r.get? c = some old then r.set c new else r)
  match t.uniqueCols with
  | none => .ok { t with rows := rows2 }
  | some uc =>
    if hasDup (rows2.map (fun r => uc.map r.get?)) then .error ()
    else .ok { t with rows := rows2 }

/-- The per-distinct-value body of `update_db_table_ids`
(jellyfin_migrator.py lines 1046-1057): try the update; on
`IntegrityError`, select and log every row whose column equals the old
value, then delete exactly those rows.  The handler is total: no error
reaches the caller.  Returns the new table and the logged (deleted)
rows. -/
def update_db_table_ids_value {α : Type} [DecidableEq α] (t : Table α)
    (c : Nat) (old new : α) : Table α × List (List α) :=
  match executeUpdateWhere t c new old with
  | .ok t2 => (t2, [])
  | .error _ =>
    ({ t with rows := t.rows.filter (fun r => !(decide (r.get? c = some old))) },
     t.rows.filter (fun r => decide (r.get? c = some old)))

/-- The per-column loop of `update_db_table_ids` (lines 1035-1058):
snapshot the distinct column values, then fold the per-value handler over
them, applying only values present in the id map and accumulating the
logged deletions. -/
def update_db_table_ids_column {α : Type} [DecidableEq α] (t : Table α)
    (c : Nat) (idMap : List (α × α)) : Table α × List (List α) :=
  ((t.rows.filterMap (fun r => r.get? c)).dedup).foldl
    (fun acc old =>
      match idMap.lookup old with
      | none => acc
      | some new =>
        let r := update_db_table_ids_value acc.1 c old new
        (r.1, acc.2 ++ r.2))
    (t, [])

/-- C4: whenever the id update raises a unique-constraint violation, the
rewriter deletes every row of the table whose column equals the old value
(and only those), logs exactly the deleted rows, and keeps the table's
constraints; the handler itself is total, so the run continues and no
error reaches the caller. -/
theorem id_update_unique_violation_deletes {α : Type} [DecidableEq α]
    (t : Table α) (c : Nat) (old new : α)
    (herr : executeUpdateWhere t c new old = .error ()) :
    (∀ r, r ∈ (update_db_table_ids_value t c old new).1.rows ↔
      (r ∈ t.rows ∧ r.get? c ≠ some old)) ∧
    (update_db_table_ids_value t c old new).2 =
      t.rows.filter (fun r => decide (r.get? c = some old)) ∧
    (update_db_table_ids_value t c old new).1.uniqueCols = t.uniqueCols := by
  unfold update_db_table_ids_value
  rw [herr]
  refine ⟨?_, rfl, rfl⟩
  intro r
  simp [List.mem_filter]

/-- Witness for C4: a two-row table with a unique index on column 0;
updating `1` to `2` collides with the existing `2`, so the row `[1]` is
deleted and logged. -/
theorem id_update_unique_violation_deletes_witness :
    (∀ r, r ∈ (update_db_table_ids_value (Table.mk [[1], [2]] (some [0])) 0 1 2).1.rows ↔
      (r ∈ ([[1], [2]] : List (List Nat)) ∧ r.get? 0 ≠ some 1)) ∧
    (update_db_table_ids_value (Table.mk [[1], [2]] (some [0])) 0 1 2).2 =
      List.filter (fun r => decide (r.get? 0 = some 1)) [[1], [2]] :=
  ⟨(id_update_unique_violation_deletes (Table.mk [[1], [2]] (some [0])) 0 1 2 (by rfl)).1,
   (id_update_unique_violation_deletes (Table.mk [[1], [2]] (some [0])) 0 1 2 (by rfl)).2.1⟩

/-- Witness for C6: the identity-transform round trip at the spec's example
descriptor. -/
theorem jf_image_descriptor_roundtrip_witness :
    jfImageTransform (fun s => s)
      "%MetadataPath%\\lib\\71\\ABC\\p.jpg*637*Primary*198*198*hash|%MetadataPath%\\lib\\71\\DEF\\p.jpg".data
      = "%MetadataPath%\\lib\\71\\ABC\\p.jpg*637*Primary*198*198*hash|%MetadataPath%\\lib\\71\\DEF\\p.jpg".data :=
  jf_image_descriptor_roundtrip.1 (fun s => s) (fun _ => rfl) _

/-! ### The path/json/image row pass of update_db_table -/

/-- A column value as read from the database in the path/json/image pass:
`NULL` or text. -/
inductive SQLVal where
  | null
  | text (s : String)
deriving DecidableEq, Repr

/-- Python truthiness of such a value (`if data:`). -/
def truthy : SQLVal → Bool
  | .null => false
  | .text s => !s.data.isEmpty

/-- The scalar handed to the replace function for a raw column value
(`None` stays `None`, strings stay strings). -/
def docOfVal : SQLVal → Doc
  | .null => .null
  | .text s => .str s

/-- The json-column loop of `update_db_table` (jellyfin_migrator.py lines
677-685): skip falsy values; parse the rest (a parse failure is fatal),
walk them with the replace function and re-serialize; every truthy json
column produces a result entry. -/
def rowJsonStep (rf : Doc → Except PyErr (Doc × Nat × Nat))
    (jloads : String → Option Doc) (jdumps : Doc → String) :
    List (String × SQLVal) → Except PyErr (List (String × Doc) × Nat × Nat)
  | [] => .ok ([], 0, 0)
  | (name, v) :: rest =>
    match v with
    | .null => rowJsonStep rf jloads jdumps rest
    | .text s =>
      if s.data.isEmpty then rowJsonStep rf jloads jdumps rest
      else
        match jloads s with
        | none => .error .jsonError
        | some doc => do
          let (doc2, mo1, ig1) ← rf doc
          let (accRest, mo2, ig2) ← rowJsonStep rf jloads jdumps rest
          .ok ((name, Doc.str (jdumps doc2)) :: accRest, mo1 + mo2, ig1 + ig2)

/-- The path-column loop (lines 686-692): every path column value, empty
or not, is passed through the replace function and produces a result
entry. -/
def rowPathStep (rf : Doc → Except PyErr (Doc × Nat × Nat)) :
    List (String × SQLVal) → Except PyErr (List (String × Doc) × Nat × Nat)
  | [] => .ok ([], 0, 0)
  | (name, v) :: rest => do
    let (doc2, mo1, ig1) ← rf (docOfVal v)
    let (accRest, mo2, ig2) ← rowPathStep rf rest
    .ok ((name, doc2) :: accRest, mo1 + mo2, ig1 + ig2)

/-- The entry loop of the jf-image transformation (lines 705-715), with
the replace function applied to the first field of each non-empty entry;
a non-string replacement would make Python's `"*".join` raise. -/
def jfImageEntries (rf : Doc → Except PyErr (Doc × Nat × Nat)) :
    List (List Char) → Except PyErr (List (List Char) × Nat × Nat)
  | [] => .ok ([], 0, 0)
  | entry :: rest =>
    if entry.isEmpty then do
      let (accRest, mo, ig) ← jfImageEntries rf rest
      .ok (entry :: accRest, mo, ig)
    else
      match splitOnChar '*' entry with
      | [] => do
        let (accRest, mo, ig) ← jfImageEntries rf rest
        .ok (entry :: accRest, mo, ig)
      | p :: props => do
        let (pd, mo1, ig1) ← rf (Doc.str (String.mk p))
        match pd with
        | .str p2 => do
          let (accRest, mo2, ig2) ← jfImageEntries rf rest
          .ok (joinWith ['*'] (p2.data :: props) :: accRest, mo1 + mo2, ig1 + ig2)
        | _ => .error .typeError

/-- One image-descriptor column value through the entry loop. -/
def jfImageApply (rf : Doc → Except PyErr (Doc × Nat × Nat)) (s : String) :
    Except PyErr (String × Nat × Nat) := do
  let (entries2, mo, ig) ← jfImageEntries rf (splitOnChar '|' s.data)
  .ok (String.mk (joinWith ['|'] entries2), mo, ig)

/-- The image-column loop of `update_db_table` (lines 693-716): skip falsy
values; every truthy image column produces a result entry. -/
def rowImgStep (rf : Doc → Except PyErr (Doc × Nat × Nat)) :
    List (String × SQLVal) → Except PyErr (List (String × Doc) × Nat × Nat)
  | [] => .ok ([], 0, 0)
  | (name, v) :: rest =>
    match v with
    | .null => rowImgStep rf rest
    | .text s =>
      if s.data.isEmpty then rowImgStep rf rest
      else do
        let (imgs2, mo1, ig1) ← jfImageApply rf s
        let (accRest, mo2, ig2) ← rowImgStep rf rest
        .ok ((name, Doc.str imgs2) :: accRest, mo1 + mo2, ig1 + ig2)

/-- The per-row body of `update_db_table` (jellyfin_migrator.py lines
666-737): build the `result` assignment list from the json, path and image
columns of the row (in that order).  The caller issues an UPDATE whenever
the list is non-empty (`if not result: continue`). -/
def update_db_table_row (rf : Doc → Except PyErr (Doc × Nat × Nat))
    (jloads : String → Option Doc) (jdumps : Doc → String)
    (jsonCols pathCols imgCols : List (String × SQLVal)) :
    Except PyErr (List (String × Doc) × Nat × Nat) := do
  let (ja, mo1, ig1) ← rowJsonStep rf jloads jdumps jsonCols
  let (pa, mo2, ig2) ← rowPathStep rf pathCols
  let (ia, mo3, ig3) ← rowImgStep rf imgCols
  .ok (ja ++ pa ++ ia, mo1 + (mo2 + mo3), ig1 + (ig2 + ig3))

theorem except_bind_ok {ε α β : Type} {x : Except ε α} {f : α → Except ε β}
    {b : β} (h : x.bind f = .ok b) : ∃ a, x = .ok a ∧ f a = .ok b := by
  cases x with
  | error e =>
    exact absurd h (by simp [Except.bind])
  | ok a => exact ⟨a, rfl, h⟩

theorem rowJsonStep_empty_iff (rf : Doc → Except PyErr (Doc × Nat × Nat))
    (jloads : String → Option Doc) (jdumps : Doc → String) :
    ∀ (cols : List (String × SQLVal)) res mo ig,
      rowJsonStep rf jloads jdumps cols = .ok (res, mo, ig) →
      (res = [] ↔ ∀ kv ∈ cols, truthy kv.2 = false) := by
  intro cols
  induction cols with
  | nil =>
    intro res mo ig h
    simp only [rowJsonStep, Except.ok.injEq, Prod.mk.injEq] at h
    simp [← h.1]
  | cons kv rest ih =>
    intro res mo ig h
    obtain ⟨name, v⟩ := kv
    match v with
    | .null =>
      rw [show rowJsonStep rf jloads jdumps ((name, SQLVal.null) :: rest)
          = rowJsonStep rf jloads jdumps rest from rfl] at h
      rw [ih res mo ig h]
      simp [truthy]
    | .text s =>
      by_cases hs : s.data.isEmpty
      · rw [show rowJsonStep rf jloads jdumps ((name, SQLVal.text s) :: rest)
            = if s.data.isEmpty then rowJsonStep rf jloads jdumps rest
              else match jloads s with
                | none => .error .jsonError
                | some doc => do
                  let (doc2, mo1, ig1) ← rf doc
                  let (accRest, mo2, ig2) ← rowJsonStep rf jloads jdumps rest
                  .ok ((name, Doc.str (jdumps doc2)) :: accRest, mo1 + mo2, ig1 + ig2)
            from rfl, if_pos hs] at h
        rw [ih res mo ig h]
        simp [truthy, hs]
      · rw [show rowJsonStep rf jloads jdumps ((name, SQLVal.text s) :: rest)
            = if s.data.isEmpty then rowJsonStep rf jloads jdumps rest
              else match jloads s with
                | none => .error .jsonError
                | some doc => do
                  let (doc2, mo1, ig1) ← rf doc
                  let (accRest, mo2, ig2) ← rowJsonStep rf jloads jdumps rest
                  .ok ((name, Doc.str (jdumps doc2)) :: accRest, mo1 + mo2, ig1 + ig2)
            from rfl, if_neg hs] at h
        cases hl : jloads s with
        | none =>
          rw [hl] at h
          exact absurd h (by simp)
        | some doc =>
          rw [hl] at h
          obtain ⟨⟨doc2, mo1, ig1⟩, hrf, h2⟩ := except_bind_ok h
          obtain ⟨⟨accRest, mo2, ig2⟩, hrest, h3⟩ := except_bind_ok h2
          simp only [Except.ok.injEq, Prod.mk.injEq] at h3
          constructor
          · intro hres
            rw [← h3.1] at hres
            simp at hres
          · intro hall
            have := hall (name, SQLVal.text s) (List.mem_cons_self _ _)
            simp [truthy, hs] at this
  
theorem rowPathStep_empty_iff (rf : Doc → Except PyErr (Doc × Nat × Nat)) :
    ∀ (cols : List (String × SQLVal)) res mo ig,
      rowPathStep rf cols = .ok (res, mo, ig) →
      (res = [] ↔ cols = []) := by
  intro cols
  induction cols with
  | nil =>
    intro res mo ig h
    simp only [rowPathStep, Except.ok.injEq, Prod.mk.injEq] at h
    simp [← h.1]
  | cons kv rest _ =>
    intro res mo ig h
    obtain ⟨name, v⟩ := kv
    rw [show rowPathStep rf ((name, v) :: rest) = do
        let (doc2, mo1, ig1) ← rf (docOfVal v)
        let (accRest, mo2, ig2) ← rowPathStep rf rest
        .ok ((name, doc2) :: accRest, mo1 + mo2, ig1 + ig2) from rfl] at h
    obtain ⟨⟨doc2, mo1, ig1⟩, hrf, h2⟩ := except_bind_ok h
    obtain ⟨⟨accRest, mo2, ig2⟩, hrest, h3⟩ := except_bind_ok h2
    simp only [Except.ok.injEq, Prod.mk.injEq] at h3
    constructor
    · intro hres
      rw [← h3.1] at hres
      simp at hres
    · intro hcols
      simp at hcols

theorem rowImgStep_empty_iff (rf : Doc → Except PyErr (Doc × Nat × Nat)) :
    ∀ (cols : List (String × SQLVal)) res mo ig,
      rowImgStep rf cols = .ok (res, mo, ig) →
      (res = [] ↔ ∀ kv ∈ cols, truthy kv.2 = false) := by
  intro cols
  induction cols with
  | nil =>
    intro res mo ig h
    simp only [rowImgStep, Except.ok.injEq, Prod.mk.injEq] at h
    simp [← h.1]
  | cons kv rest ih =>
    intro res mo ig h
    obtain ⟨name, v⟩ := kv
    match v with
    | .null =>
      rw [show rowImgStep rf ((name, SQLVal.null) :: rest)
          = rowImgStep rf rest from rfl] at h
      rw [ih res mo ig h]
      simp [truthy]
    | .text s =>
      by_cases hs : s.data.isEmpty
      · rw [show rowImgStep rf ((name, SQLVal.text s) :: rest)
            = if s.data.isEmpty then rowImgStep rf rest
              else do
                let (imgs2, mo1, ig1) ← jfImageApply rf s
                let (accRest, mo2, ig2) ← rowImgStep rf rest
                .ok ((name, Doc.str imgs2) :: accRest, mo1 + mo2, ig1 + ig2)
            from rfl, if_pos hs] at h
        rw [ih res mo ig h]
        simp [truthy, hs]
      · rw [show rowImgStep rf ((name, SQLVal.text s) :: rest)
            = if s.data.isEmpty then rowImgStep rf rest
              else do
                let (imgs2, mo1, ig1) ← jfImageApply rf s
                let (accRest, mo2, ig2) ← rowImgStep rf rest
                .ok ((name, Doc.str imgs2) :: accRest, mo1 + mo2, ig1 + ig2)
            from rfl, if_neg hs] at h
        obtain ⟨⟨imgs2, mo1, ig1⟩, hrf, h2⟩ := except_bind_ok h
        obtain ⟨⟨accRest, mo2, ig2⟩, hrest, h3⟩ := except_bind_ok h2
        simp only [Except.ok.injEq, Prod.mk.injEq] at h3
        constructor
        · intro hres
          rw [← h3.1] at hres
          simp at hres
        · intro hall
          have := hall (name, SQLVal.text s) (List.mem_cons_self _ _)
          simp [truthy, hs] at this

/-- C3 counterexample: a row with one path column whose value `"x"` is
left unchanged by the path replacer still produces a non-empty result
list, so the caller issues an UPDATE for it (writing back the identical
value). -/
theorem unchanged_row_still_updated :
    update_db_table_row
      (fun d => recursive_root_path_replacer d [("target_path_slash", MapVal.str "/")])
      (fun _ => none) (fun _ => "")
      [] [("path", SQLVal.text "x")] []
      = .ok ([("path", Doc.str "x")], 0, 1) ∧
    ([("path", Doc.str "x")] : List (String × Doc)) ≠ [] := by
  exact ⟨rfl, by simp⟩

/-- C3 (amended): the row pass skips the UPDATE exactly when no result
entry is produced, i.e. when the row has no targeted path columns and all
its targeted json and image values are falsy (NULL or empty); a row with a
targeted path column is updated even when every transformation leaves its
values unchanged (the update then writes back identical bytes). -/
theorem update_skipped_iff_no_result_entries
    (rf : Doc → Except PyErr (Doc × Nat × Nat))
    (jloads : String → Option Doc) (jdumps : Doc → String)
    (jsonCols pathCols imgCols : List (String × SQLVal))
    (res : List (String × Doc)) (mo ig : Nat)
    (hok : update_db_table_row rf jloads jdumps jsonCols pathCols imgCols
      = .ok (res, mo, ig)) :
    (res = [] ↔ (pathCols = [] ∧ (∀ kv ∈ jsonCols, truthy kv.2 = false) ∧
      (∀ kv ∈ imgCols, truthy kv.2 = false))) := by
  unfold update_db_table_row at hok
  obtain ⟨⟨ja, mo1, ig1⟩, hja, h2⟩ := except_bind_ok hok
  obtain ⟨⟨pa, mo2, ig2⟩, hpa, h3⟩ := except_bind_ok h2
  obtain ⟨⟨ia, mo3, ig3⟩, hia, h4⟩ := except_bind_ok h3
  simp only [Except.ok.injEq, Prod.mk.injEq] at h4
  rw [← h4.1]
  simp only [List.append_eq_nil]
  rw [rowJsonStep_empty_iff rf jloads jdumps jsonCols ja mo1 ig1 hja,
    rowPathStep_empty_iff rf pathCols pa mo2 ig2 hpa,
    rowImgStep_empty_iff rf imgCols ia mo3 ig3 hia]
  tauto

/-- Witness for C3 (amended): a row whose only targeted column is an empty
image column is skipped. -/
theorem update_skipped_iff_no_result_entries_witness :
    (([] : List (String × Doc)) = [] ↔
      (([] : List (String × SQLVal)) = [] ∧
        (∀ kv ∈ ([] : List (String × SQLVal)), truthy kv.2 = false) ∧
        (∀ kv ∈ [("Images", SQLVal.text "")], truthy kv.2 = false))) :=
  update_skipped_iff_no_result_entries
    (fun d => recursive_root_path_replacer d [("target_path_slash", MapVal.str "/")])
    (fun _ => none) (fun _ => "") [] [] [("Images", SQLVal.text "")]
    [] 0 0 (by rfl)

/-! ### The id-in-path rewriter (recursive_id_path_replacer) -/

/-- `set(part).issubset(set("0123456789abcdef-"))`. -/
def idShaped (s : String) : Bool := s.data.all isHexDashChar

/-- `to_replace.get(k, "")`. -/
def lookupD (m : List (String × String)) (k : String) : String :=
  (m.lookup k).getD ""

/-- `pathlib` name of a path: the last component, or `""` when there is
none. -/
def nameOfPP (p : PPath) : String := p.parts.getLast?.getD ""

/-- Index of the last `.` in a name (`name.rfind "."`). -/
def rfindDot (name : List Char) : Option Nat :=
  (name.reverse.findIdx? (fun c => c == '.')).map (fun j => name.length - 1 - j)

/-- `PurePath.stem`: the name without its suffix; the suffix exists only
when the last dot is neither first nor last character. -/
def pstem (name : List Char) : List Char :=
  match rfindDot name with
  | some i => if 0 < i ∧ i < name.length - 1 then name.take i else name
  | none => name

/-- `PurePath.suffix`. -/
def psuffix (name : List Char) : List Char :=
  match rfindDot name with
  | some i => if 0 < i ∧ i < name.length - 1 then name.drop i else []
  | none => []

/-- Validity of an argument to `PurePath.with_name`: non-empty, no
separator, not `.` (otherwise `ValueError`). -/
def validName (name : List Char) : Bool :=
  !name.isEmpty && !name.contains '/' && !(name == ['.'])

/-- `PurePath.with_name`: replace the last component; raises `ValueError`
when the path has no name (root or empty path) or the new name is
invalid. -/
def withName (p : PPath) (n : String) : Except PyErr PPath :=
  if p.parts.isEmpty then .error .valueError
  else if validName n.data then .ok { p with parts := p.parts.dropLast ++ [n] }
  else .error .valueError

/-- The scan of `p.parts[:-1]` (jellyfin_migrator.py lines 555-561): the
first directory component that is id-shaped and truthy in the map,
together with its replacement. -/
def findMappedPart (m : List (String × String)) : List String → Option (String × String)
  | [] => none
  | part :: rest =>
    if idShaped part && !(lookupD m part == "") then some (part, lookupD m part)
    else findMappedPart m rest

/-- The `while p.name != src: p = p.parent` walk (lines 567-568): keep the
components up to and including the last occurrence of `src`. -/
def truncToLast (src : String) (parts : List String) : List String :=
  (parts.reverse.dropWhile (fun x => !(x == src))).reverse

/-- Serialize with the mapping's `target_path_slash`
(`to_replace["target_path_slash"]`; `KeyError` when absent). -/
def serializeWith (m : List (String × String)) (p : PPath) :
    Except PyErr String :=
  match m.lookup "target_path_slash" with
  | none => .error .keyError
  | some slash => .ok (replaceSlash slash (asPosix p))

/-- The reconstruction of the path once a directory component `src` with
replacement `dst` has been found (jellyfin_migrator.py lines 563-582):
truncate at the deepest occurrence of `src`, keep the remainder `q`,
replace the component with `dst`, and when the parent's name is a textual
prefix of `src` (`src.startswith(p.parent.name)`) also replace the parent
by the same-length slice `dst[:len(p.name)]`; finally re-join. -/
def idPathRebuild (m : List (String × String)) (p : PPath) (src dst : String) :
    Except PyErr (String × Nat × Nat) :=
  (withName { absolute := p.absolute, parts := truncToLast src p.parts } dst).bind fun p2 =>
    if (((truncToLast src p.parts).dropLast.getLast?.getD "").data.isPrefixOf src.data) then
      (withName { absolute := p.absolute, parts := (truncToLast src p.parts).dropLast }
          (String.mk (dst.data.take
            (((truncToLast src p.parts).dropLast.getLast?.getD "").length)))).bind fun p3 =>
        (serializeWith m (PPath.mk p.absolute
            (p3.parts ++ dst :: p.parts.drop (truncToLast src p.parts).length))).map
          fun out => (out, 1, 0)
    else
      (serializeWith m (PPath.mk p.absolute
          (p2.parts ++ p.parts.drop (truncToLast src p.parts).length))).map
        fun out => (out, 1, 0)

/-- The `str` / `PurePath` branch of `recursive_id_path_replacer`
(jellyfin_migrator.py lines 536-596).  First try the file stem: when it is
id-shaped and mapped, replace it (keeping the suffix).  Otherwise scan the
directory components for the first id-shaped mapped one and rebuild the
path around its replacement.  If nothing matches, return the input
unchanged. -/
def recursive_id_path_replacer_str (d : String) (m : List (String × String)) :
    Except PyErr (String × Nat × Nat) :=
  if idShaped (String.mk (pstem (nameOfPP (pathOf d)).data))
      && !(lookupD m (String.mk (pstem (nameOfPP (pathOf d)).data)) == "") then
    (withName (pathOf d)
        (lookupD m (String.mk (pstem (nameOfPP (pathOf d)).data)) ++
          String.mk (psuffix (nameOfPP (pathOf d)).data))).bind fun p2 =>
      (serializeWith m p2).map fun out => (out, 1, 0)
  else
    match findMappedPart m (pathOf d).parts.dropLast with
    | none => .ok (d, 0, 1)
    | some (src, dst) => idPathRebuild m (pathOf d) src dst

theorem findMappedPart_first (m : List (String × String)) (xs : List String)
    (src dst : String) (rest : List String)
    (hxs : ∀ x ∈ xs, (idShaped x && !(lookupD m x == "")) = false)
    (hsrc : idShaped src = true) (hdst : lookupD m src = dst) (hne : dst ≠ "") :
    findMappedPart m (xs ++ src :: rest) = some (src, dst) := by
  induction xs with
  | nil =>
    have hcond : (idShaped src && !(lookupD m src == "")) = true := by
      rw [hsrc, hdst]
      simp [hne]
    simp only [List.nil_append, findMappedPart, hcond, if_true]
    rw [hdst]
  | cons x xs2 ih =>
    have hx := hxs x (List.mem_cons_self x xs2)
    simp only [List.cons_append, findMappedPart, hx, Bool.false_eq_true, if_false]
    exact ih (fun y hy => hxs y (List.mem_cons_of_mem x hy))

theorem dropWhile_all_append {α : Type} (p : α → Bool) (l1 l2 : List α)
    (h : ∀ a ∈ l1, p a = true) :
    List.dropWhile p (l1 ++ l2) = List.dropWhile p l2 := by
  induction l1 with
  | nil => rfl
  | cons a t ih =>
    rw [List.cons_append, List.dropWhile_cons, h a (List.mem_cons_self a t)]
    simp only [if_true]
    exact ih (fun b hb => h b (List.mem_cons_of_mem a hb))

theorem truncToLast_eq (src : String) (xs ys : List String) (hys : src ∉ ys) :
    truncToLast src (xs ++ src :: ys) = xs ++ [src] := by
  unfold truncToLast
  have h1 : (xs ++ src :: ys).reverse = ys.reverse ++ src :: xs.reverse := by
    simp
  rw [h1]
  have h2 : List.dropWhile (fun x => !(x == src)) (ys.reverse ++ src :: xs.reverse)
      = src :: xs.reverse := by
    rw [dropWhile_all_append _ ys.reverse (src :: xs.reverse)
      (fun a ha => by
        simp only [Bool.not_eq_true', beq_eq_false_iff_ne, ne_eq]
        intro heq
        exact hys (heq ▸ (List.mem_reverse.mp ha)))]
    rw [List.dropWhile_cons]
    simp
  rw [h2]
  simp

theorem validName_of_all_hexDash {l : List Char}
    (h : l.all isHexDashChar = true) (hne : l ≠ []) : validName l = true := by
  unfold validName
  have h1 : l.isEmpty = false := by
    cases l with
    | nil => exact absurd rfl hne
    | cons a t => rfl
  have hmem : ∀ c ∈ l, isHexDashChar c = true := List.all_eq_true.mp h
  have h2 : l.contains '/' = false := by
    cases hcc : l.contains '/' with
    | false => rfl
    | true =>
      have hin : '/' ∈ l := by simpa using hcc
      exact absurd (hmem '/' hin) (by decide)
  have h3 : (l == ['.']) = false := by
    cases heq : l == ['.'] with
    | false => rfl
    | true =>
      have hl : l = ['.'] := by simpa using heq
      rw [hl] at hmem
      exact absurd (hmem '.' (by simp)) (by decide)
  rw [h1, h2, h3]
  rfl

theorem validName_of_idShaped {s : String} (hid : idShaped s = true)
    (hne : s.data ≠ []) : validName s.data = true :=
  validName_of_all_hexDash hid hne

theorem validName_take {dst : String} {k : Nat} (hid : idShaped dst = true)
    (hne : dst.data ≠ []) (hk : 0 < k) : validName (dst.data.take k) = true := by
  apply validName_of_all_hexDash
  · rw [List.all_eq_true]
    intro c hc
    exact List.all_eq_true.mp hid c (List.mem_of_mem_take hc)
  · cases hd : dst.data with
    | nil => exact absurd hd hne
    | cons a t =>
      cases k with
      | zero => exact absurd hk (by simp)
      | succ n => simp [hd]

theorem withName_concat (ab : Bool) (l : List String) (a n : String)
    (hv : validName n.data = true) :
    withName (PPath.mk ab (l ++ [a])) n = .ok (PPath.mk ab (l ++ [n])) := by
  unfold withName
  have h1 : (l ++ [a]).isEmpty = false := by simp
  rw [h1, hv]
  simp [List.dropLast_concat]

theorem idPathRebuild_bucket
    (m : List (String × String)) (slash par srcid dst leaf : String)
    (ps qs : List String) (ab : Bool)
    (hslash : m.lookup "target_path_slash" = some slash)
    (hdstne : dst.data ≠ [])
    (hnodupe : srcid ∉ qs ++ [leaf])
    (hpar : 0 < par.length)
    (hparpre : par.data.isPrefixOf srcid.data = true)
    (hdstid : idShaped dst = true) :
    idPathRebuild m (PPath.mk ab (ps ++ par :: srcid :: (qs ++ [leaf]))) srcid dst =
      .ok (replaceSlash slash (asPosix (PPath.mk ab
        (ps ++ String.mk (dst.data.take par.length) :: dst :: (qs ++ [leaf])))), 1, 0) := by
  unfold idPathRebuild
  have hkept : truncToLast srcid (PPath.mk ab (ps ++ par :: srcid :: (qs ++ [leaf]))).parts
      = (ps ++ [par]) ++ [srcid] := by
    show truncToLast srcid (ps ++ par :: srcid :: (qs ++ [leaf])) = (ps ++ [par]) ++ [srcid]
    have h1 : ps ++ par :: srcid :: (qs ++ [leaf])
        = (ps ++ [par]) ++ srcid :: (qs ++ [leaf]) := by simp
    rw [h1]
    exact truncToLast_eq srcid (ps ++ [par]) (qs ++ [leaf]) hnodupe
  rw [hkept]
  have habs : (PPath.mk ab (ps ++ par :: srcid :: (qs ++ [leaf]))).absolute = ab := rfl
  rw [habs]
  rw [withName_concat ab (ps ++ [par]) srcid dst (validName_of_idShaped hdstid hdstne)]
  have hparent : ((ps ++ [par]) ++ [srcid]).dropLast = ps ++ [par] := List.dropLast_concat
  rw [hparent]
  have hpn : (ps ++ [par]).getLast?.getD "" = par := by
    rw [List.getLast?_concat]
    rfl
  rw [hpn]
  simp only [Except.bind]
  rw [if_pos hparpre]
  have hvalid2 : validName (String.mk (dst.data.take par.length)).data = true := by
    show validName (dst.data.take par.length) = true
    exact validName_take hdstid hdstne hpar
  rw [withName_concat ab ps par (String.mk (dst.data.take par.length)) hvalid2]
  simp only [Except.bind]
  have hq : (PPath.mk ab (ps ++ par :: srcid :: (qs ++ [leaf]))).parts.drop
      ((ps ++ [par]) ++ [srcid]).length = qs ++ [leaf] := by
    show (ps ++ par :: srcid :: (qs ++ [leaf])).drop ((ps ++ [par]) ++ [srcid]).length
      = qs ++ [leaf]
    have h1 : ps ++ par :: srcid :: (qs ++ [leaf])
        = ((ps ++ [par]) ++ [srcid]) ++ (qs ++ [leaf]) := by simp
    rw [h1, List.drop_left]
  rw [hq]
  unfold serializeWith
  rw [hslash]
  have hfinal : (ps ++ [String.mk (dst.data.take par.length)]) ++ dst :: (qs ++ [leaf])
      = ps ++ String.mk (dst.data.take par.length) :: dst :: (qs ++ [leaf]) := by simp
  show Except.map (fun out => (out, 1, 0))
      (Except.ok (replaceSlash slash (asPosix (PPath.mk ab
        ((ps ++ [String.mk (dst.data.take par.length)]) ++ dst :: (qs ++ [leaf]))))))
    = _
  rw [hfinal]
  rfl

/-- C8: when the id-in-path rewriter replaces the directory component
`srcid` by `dst` and the name `par` of that component's immediate parent
is a non-empty textual prefix of `srcid` (while no earlier component and
not the file stem match, and `srcid` occurs nowhere deeper in the path),
the parent is simultaneously replaced by the prefix of `dst` of the same
length, and all other components, the leaf and the absolute flag are
preserved. -/
theorem id_path_bucket_parent_rewrite
    (m : List (String × String)) (slash d par srcid dst leaf : String)
    (ps qs : List String) (ab : Bool)
    (hparse : pathOf d = PPath.mk ab (ps ++ par :: srcid :: (qs ++ [leaf])))
    (hslash : m.lookup "target_path_slash" = some slash)
    (hstem : (idShaped (String.mk (pstem leaf.data))
      && !(lookupD m (String.mk (pstem leaf.data)) == "")) = false)
    (hpre : ∀ x ∈ ps ++ [par], (idShaped x && !(lookupD m x == "")) = false)
    (hsrc : idShaped srcid = true)
    (hdst : lookupD m srcid = dst)
    (hdstne : dst.data ≠ [])
    (hnodupe : srcid ∉ qs ++ [leaf])
    (hpar : 0 < par.length)
    (hparpre : par.data.isPrefixOf srcid.data = true)
    (hdstid : idShaped dst = true)
    (hdstlen : par.length ≤ dst.length) :
    recursive_id_path_replacer_str d m =
      .ok (replaceSlash slash (asPosix (PPath.mk ab
        (ps ++ String.mk (dst.data.take par.length) :: dst :: (qs ++ [leaf])))), 1, 0) ∧
    (String.mk (dst.data.take par.length)).length = par.length := by
  constructor
  · unfold recursive_id_path_replacer_str
    rw [hparse]
    have hname : nameOfPP (PPath.mk ab (ps ++ par :: srcid :: (qs ++ [leaf]))) = leaf := by
      unfold nameOfPP
      show (ps ++ par :: srcid :: (qs ++ [leaf])).getLast?.getD "" = leaf
      have h1 : ps ++ par :: srcid :: (qs ++ [leaf])
          = (ps ++ par :: srcid :: qs) ++ [leaf] := by simp
      rw [h1, List.getLast?_concat]
      rfl
    rw [hname, hstem]
    simp only [Bool.false_eq_true, if_false]
    have hdrop : (PPath.mk ab (ps ++ par :: srcid :: (qs ++ [leaf]))).parts.dropLast
        = (ps ++ [par]) ++ srcid :: qs := by
      show (ps ++ par :: srcid :: (qs ++ [leaf])).dropLast = (ps ++ [par]) ++ srcid :: qs
      have h1 : ps ++ par :: srcid :: (qs ++ [leaf])
          = ((ps ++ [par]) ++ srcid :: qs) ++ [leaf] := by simp
      rw [h1, List.dropLast_concat]
    rw [hdrop, findMappedPart_first m (ps ++ [par]) srcid dst qs hpre hsrc hdst
      (fun h0 => by simp [h0] at hdstne)]
    show idPathRebuild m (PPath.mk ab (ps ++ par :: srcid :: (qs ++ [leaf]))) srcid dst = _
    exact idPathRebuild_bucket m slash par srcid dst leaf ps qs ab
      hslash hdstne hnodupe hpar hparpre hdstid
  · show (dst.data.take par.length).length = par.length
    rw [List.length_take]
    exact min_eq_left hdstlen

/-- Witness for C8 at the spec's example: the file
`/md/lib/71/<id starting 71>/poster.jpg` with the id map sending that id
to one starting `22` moves to `/md/lib/22/<new id>/poster.jpg`; the
two-character bucket parent follows the id in lockstep. -/
theorem id_path_bucket_parent_rewrite_witness :
    recursive_id_path_replacer_str
        "/md/lib/71/71abcdefabcdefabcdefabcdefabcdef/poster.jpg"
        [("71abcdefabcdefabcdefabcdefabcdef", "22defdefdefdefdefdefdefdefdefdef"),
         ("target_path_slash", "/")]
      = .ok ("/md/lib/22/22defdefdefdefdefdefdefdefdefdef/poster.jpg", 1, 0) := by
  have h := id_path_bucket_parent_rewrite
    [("71abcdefabcdefabcdefabcdefabcdef", "22defdefdefdefdefdefdefdefdefdef"),
     ("target_path_slash", "/")]
    "/" "/md/lib/71/71abcdefabcdefabcdefabcdefabcdef/poster.jpg"
    "71" "71abcdefabcdefabcdefabcdefabcdef" "22defdefdefdefdefdefdefdefdefdef"
    "poster.jpg" ["md", "lib"] [] true
    (by decide) (by decide) (by decide)
    (by intro x hx; fin_cases hx <;> decide)
    (by decide) (by decide) (by decide) (by decide) (by decide) (by decide)
    (by decide) (by decide)
  exact h.1

/-! ### The job runner (process_files) with glob expansion, target
resolution and the done set -/

/-- Matching of one glob segment against one path segment (`fnmatch` with
`*` wildcards, the only ones the job lists use), fuel-driven so the
recursion is structural; the fuel `p.length + s.length + 1` always
suffices. -/
def segMatchF : Nat → List Char → List Char → Bool
  | _, [], [] => true
  | _, [], _ :: _ => false
  | 0, _, _ => false
  | f + 1, '*' :: ps, [] => segMatchF f ps []
  | f + 1, '*' :: ps, c :: cs => segMatchF f ps (c :: cs) || segMatchF f ('*' :: ps) cs
  | _ + 1, _ :: _, [] => false
  | f + 1, p :: ps, c :: cs => p == c && segMatchF f ps cs

def segMatch (p s : List Char) : Bool := segMatchF (p.length + s.length + 1) p s

/-- `pathlib` glob pattern matching over path segments: `**` matches any
number of directories, other segments match by `segMatch`. -/
def globMatchF : Nat → List String → List String → Bool
  | _, [], [] => true
  | _, [], _ :: _ => false
  | 0, _, _ => false
  | f + 1, pat :: ps, path =>
    if pat == "**" then
      globMatchF f ps path ||
        (match path with
         | [] => false
         | _ :: rest => globMatchF f (pat :: ps) rest)
    else
      match path with
      | [] => false
      | seg :: rest => segMatch pat.data seg.data && globMatchF f ps rest

def globMatch (p s : List String) : Bool := globMatchF (p.length + s.length + 1) p s

/-- A job record from a todo list (`source`, `target`, `replacements`,
`copy_only`, `no_log`; table details live in the processing function). -/
structure Job where
  source : String
  target : String
  replacements : List (String × MapVal)
  copyOnly : Bool
  noLog : Bool

/-- The run state threaded through the job runner: the filesystem (files
keyed by parsed absolute path; directories are not modelled, mirroring the
`if src.is_dir(): continue` filter) and the remembered answer of the
in-place warning prompt. -/
structure RunSt where
  fs : List (PPath × String)
  warnFlag : Bool
deriving DecidableEq, Repr

/-- Overwrite-or-append a file. -/
def fsWrite (fs : List (PPath × String)) (p : PPath) (content : String) :
    List (PPath × String) :=
  if (fs.lookup p).isSome then
    fs.map (fun kv => if kv.1 == p then (p, content) else kv)
  else fs ++ [(p, content)]

/-- The fixed configuration of a run (the globals of the script). -/
structure RunCfg where
  ans : Char
  pathRepl : List (String × MapVal)
  originalRoot : PPath
  sourceRoot : PPath
  targetRoot : PPath

/-- The target-path computation of `get_target` for `auto` /
`auto-existing` targets (jellyfin_migrator.py lines 809-821): rebase the
source under `original_root`, apply the job-list path replacements, then
`fs_path_replacements`, and root a relative result under `target_root`
(on POSIX a non-absolute path is never relative to `/`, so that inner
branch drops out). `source.relative_to(source_root)` raises when the
source is not under the source root. -/
def get_target_path (cfg : RunCfg) (src : PPath) : Except PyErr PPath := do
  if isRelativeTo src cfg.sourceRoot then
    let orig := joinPath cfg.originalRoot (relativeTo src cfg.sourceRoot)
    let (s1, _, _) ← rootPathReplacerStr (asPosix orig) cfg.pathRepl
    let (s2, _, _) ← rootPathReplacerStr s1 fs_path_replacements
    let t := pathOf s2
    if t.absolute then pure t else pure (joinPath cfg.targetRoot t)
  else .error .valueError

/-- `get_target` (jellyfin_migrator.py lines 790-854): resolve the target
(`auto` computes it, `auto-existing` additionally skips the copy, anything
else is a literal path), warn on in-place work (the operator's fixed
answer `cfg.ans` stands in for `input()`; `A` clears the remembered flag,
`N` skips the file by returning no target), and otherwise copy the source
to the target.  Copying a missing source is an IO error. -/
def get_target (cfg : RunCfg) (src : PPath) (targetSpec : String)
    (st : RunSt) : Except PyErr (Option PPath × RunSt) := do
  let autoMode :=
    match parseParts targetSpec with
    | [t] => "auto".data.isPrefixOf t.data
    | _ => false
  let (target, skipCopy) ←
    if autoMode then do
      let t ← get_target_path cfg src
      pure (t, (targetSpec == "auto-existing"))
    else pure (pathOf targetSpec, false)
  if src == target then
    if st.warnFlag then
      if cfg.ans == 'n' then pure (none, st)
      else if cfg.ans == 'a' then pure (some target, { st with warnFlag := false })
      else pure (some target, st)
    else pure (some target, st)
  else if !skipCopy then
    match st.fs.lookup src with
    | none => .error .valueError
    | some content => pure (some target, { st with fs := fsWrite st.fs target content })
  else pure (some target, st)

/-- The per-file processing function handed to the runner
(`process_func`, e.g. `process_file` or `update_db_table_ids`): it sees
the job, the source, the resolved target and the run state. -/
def ProcFunc : Type := Job → PPath → Option PPath → RunSt → Except PyErr RunSt

/-- The inner loop of `process_files` over the glob matches of one job
(jellyfin_migrator.py lines 957-978): skip sources already in `done`,
record the rest, resolve their target and process them.  Returns the done
set, the state and the trace of processed sources. -/
def processMatches (pf : ProcFunc) (cfg : RunCfg) (job : Job) :
    List PPath → List PPath → RunSt → List PPath →
    Except PyErr (List PPath × RunSt × List PPath)
  | [], done, st, trace => .ok (done, st, trace)
  | src :: rest, done, st, trace =>
    if done.contains src then processMatches pf cfg job rest done st trace
    else do
      let (tgt, st2) ← get_target cfg src job.target st
      let st3 ← pf job src tgt st2
      processMatches pf cfg job rest (done ++ [src]) st3 (trace ++ [src])

/-- One job of `process_files` (lines 945-998): wildcard sources are
relativized against the source root and expanded against the current
filesystem in order; literal sources are processed once. -/
def processJob (pf : ProcFunc) (cfg : RunCfg) (job : Job)
    (done : List PPath) (st : RunSt) (trace : List PPath) :
    Except PyErr (List PPath × RunSt × List PPath) :=
  if job.source.data.contains '*' then
    if isRelativeTo (pathOf job.source) cfg.sourceRoot then
      processMatches pf cfg job
        ((st.fs.map Prod.fst).filter (fun p =>
          isRelativeTo p cfg.sourceRoot &&
            globMatch (relativeTo (pathOf job.source) cfg.sourceRoot).parts
              (relativeTo p cfg.sourceRoot).parts))
        done st trace
    else .error .valueError
  else
    if done.contains (pathOf job.source) then .ok (done, st, trace)
    else do
      let (tgt, st2) ← get_target cfg (pathOf job.source) job.target st
      let st3 ← pf job (pathOf job.source) tgt st2
      .ok (done ++ [pathOf job.source], st3, trace ++ [pathOf job.source])

/-- The job loop of `process_files`. -/
def processFilesGo (pf : ProcFunc) (cfg : RunCfg) :
    List Job → List PPath → RunSt → List PPath →
    Except PyErr (List PPath × RunSt × List PPath)
  | [], done, st, trace => .ok (done, st, trace)
  | job :: rest, done, st, trace => do
    let (done2, st2, trace2) ← processJob pf cfg job done st trace
    processFilesGo pf cfg rest done2 st2 trace2

/-- `process_files` (jellyfin_migrator.py lines 943-999): run the job list
with a fresh `done` set, returning the final state and the trace of
processed source files. -/
def process_files (pf : ProcFunc) (cfg : RunCfg) (jobs : List Job)
    (st : RunSt) : Except PyErr (RunSt × List PPath) :=
  (processFilesGo pf cfg jobs [] st []).map (fun r => (r.2.1, r.2.2))

/-- The configuration of the C9 scenario: one source tree `/src` mapped to
`/out`. -/
def c9Cfg : RunCfg :=
  RunCfg.mk 'y' [("/src", MapVal.str "/out"), ("target_path_slash", MapVal.str "/")]
    (pathOf "/src") (pathOf "/src") (pathOf "/tgt")

/-- A copy-only job for the single file `/src/a.txt`. -/
def c9JobA : Job := Job.mk "/src/a.txt" "auto"
  [("/src", MapVal.str "/out"), ("target_path_slash", MapVal.str "/")] true true

/-- The trailing catch-all copy-only job (`**/*.*`). -/
def c9CatchAll : Job := Job.mk "/src/**/*.*" "auto"
  [("/src", MapVal.str "/out"), ("target_path_slash", MapVal.str "/")] true true

/-- A source tree with two files. -/
def c9St0 : RunSt :=
  RunSt.mk [(pathOf "/src/a.txt", "A"), (pathOf "/src/b.txt", "B")] true

/-- `process_file` on a `copy_only` job: it returns right after the copy
(which `get_target` already performed), leaving the state unchanged. -/
def copyOnlyProc : ProcFunc := fun _ _ _ st => .ok st

/-- C9 counterexample: with the trailing catch-all the run produces the
extra target file `/out/b.txt`, so the set of resulting target files
differs from the run without the catch-all (each matched source is still
processed at most once; the traces are `[a]` and `[a, b]`). -/
theorem catchall_changes_target_files :
    process_files copyOnlyProc c9Cfg [c9JobA] c9St0 =
      .ok (RunSt.mk [(pathOf "/src/a.txt", "A"), (pathOf "/src/b.txt", "B"),
        (pathOf "/out/a.txt", "A")] true, [pathOf "/src/a.txt"]) ∧
    process_files copyOnlyProc c9Cfg [c9JobA, c9CatchAll] c9St0 =
      .ok (RunSt.mk [(pathOf "/src/a.txt", "A"), (pathOf "/src/b.txt", "B"),
        (pathOf "/out/a.txt", "A"), (pathOf "/out/b.txt", "B")] true,
        [pathOf "/src/a.txt", pathOf "/src/b.txt"]) ∧
    [(pathOf "/src/a.txt", ("A" : String)), (pathOf "/src/b.txt", "B"),
        (pathOf "/out/a.txt", "A")].map Prod.fst ≠
      [(pathOf "/src/a.txt", ("A" : String)), (pathOf "/src/b.txt", "B"),
        (pathOf "/out/a.txt", "A"), (pathOf "/out/b.txt", "B")].map Prod.fst ∧
    pathOf "/out/b.txt" ∉
      [(pathOf "/src/a.txt", ("A" : String)), (pathOf "/src/b.txt", "B"),
        (pathOf "/out/a.txt", "A")].map Prod.fst :=
  ⟨by rfl, by rfl, by decide, by decide⟩

theorem processMatches_inv (pf : ProcFunc) (cfg : RunCfg) (job : Job) :
    ∀ (srcs done : List PPath) (st : RunSt) (trace : List PPath)
      (done2 : List PPath) (st2 : RunSt) (trace2 : List PPath),
      processMatches pf cfg job srcs done st trace = .ok (done2, st2, trace2) →
      ∃ extra, trace2 = trace ++ extra ∧ extra.Nodup ∧
        (∀ x ∈ extra, x ∉ done) ∧ (∀ x ∈ done, x ∈ done2) ∧
        (∀ x ∈ extra, x ∈ done2) := by
  intro srcs
  induction srcs with
  | nil =>
    intro done st trace d2 s2 t2 h
    simp only [processMatches, Except.ok.injEq, Prod.mk.injEq] at h
    obtain ⟨h1, _, h3⟩ := h
    exact ⟨[], by simp [h3], by simp, by simp, fun x hx => h1 ▸ hx, by simp⟩
  | cons src rest ih =>
    intro done st trace d2 s2 t2 h
    cases hc : done.contains src with
    | true =>
      rw [show processMatches pf cfg job (src :: rest) done st trace
          = if done.contains src then processMatches pf cfg job rest done st trace
            else ((get_target cfg src job.target st).bind fun r =>
              (pf job src r.1 r.2).bind fun st3 =>
              processMatches pf cfg job rest (done ++ [src]) st3 (trace ++ [src]))
        from rfl, hc, if_pos rfl] at h
      exact ih done st trace d2 s2 t2 h
    | false =>
      rw [show processMatches pf cfg job (src :: rest) done st trace
          = if done.contains src then processMatches pf cfg job rest done st trace
            else ((get_target cfg src job.target st).bind fun r =>
              (pf job src r.1 r.2).bind fun st3 =>
              processMatches pf cfg job rest (done ++ [src]) st3 (trace ++ [src]))
        from rfl, hc] at h
      simp only [Bool.false_eq_true, if_false] at h
      obtain ⟨⟨tgt, st2m⟩, _, h2⟩ := except_bind_ok h
      obtain ⟨st3, _, h3⟩ := except_bind_ok h2
      obtain ⟨extra, heq, hnd, hnotin, hmono, hsub⟩ :=
        ih (done ++ [src]) st3 (trace ++ [src]) d2 s2 t2 h3
      have hsrcnotdone : src ∉ done := by
        intro hmem
        have : done.contains src = true := by
          simpa using hmem
        rw [this] at hc
        exact absurd hc (by simp)
      refine ⟨src :: extra, by rw [heq]; simp, ?_, ?_, ?_, ?_⟩
      · rw [List.nodup_cons]
        exact ⟨fun hmem => (hnotin src hmem) (by simp), hnd⟩
      · intro x hx
        rcases List.mem_cons.mp hx with rfl | hx2
        · exact hsrcnotdone
        · intro hmem
          exact (hnotin x hx2) (List.mem_append_left [src] hmem)
      · intro x hxdone
        exact hmono x (List.mem_append_left [src] hxdone)
      · intro x hx
        rcases List.mem_cons.mp hx with rfl | hx2
        · exact hmono x (by simp)
        · exact hsub x hx2

theorem processJob_inv (pf : ProcFunc) (cfg : RunCfg) (job : Job)
    (done : List PPath) (st : RunSt) (trace : List PPath)
    (done2 : List PPath) (st2 : RunSt) (trace2 : List PPath)
    (h : processJob pf cfg job done st trace = .ok (done2, st2, trace2)) :
    ∃ extra, trace2 = trace ++ extra ∧ extra.Nodup ∧
      (∀ x ∈ extra, x ∉ done) ∧ (∀ x ∈ done, x ∈ done2) ∧
      (∀ x ∈ extra, x ∈ done2) := by
  unfold processJob at h
  by_cases hw : job.source.data.contains '*' = true
  · rw [hw] at h
    simp only [if_true] at h
    by_cases hr : isRelativeTo (pathOf job.source) cfg.sourceRoot = true
    · rw [hr] at h
      simp only [if_true] at h
      exact processMatches_inv pf cfg job _ done st trace done2 st2 trace2 h
    · rw [Bool.not_eq_true] at hr
      rw [hr] at h
      simp at h
  · rw [Bool.not_eq_true] at hw
    rw [hw] at h
    simp only [Bool.false_eq_true, if_false] at h
    cases hc : done.contains (pathOf job.source) with
    | true =>
      rw [hc] at h
      simp only [if_true, Except.ok.injEq, Prod.mk.injEq] at h
      obtain ⟨h1, _, h3⟩ := h
      exact ⟨[], by simp [h3], by simp, by simp, fun x hx => h1 ▸ hx, by simp⟩
    | false =>
      rw [hc] at h
      simp only [Bool.false_eq_true, if_false] at h
      obtain ⟨⟨tgt, st2m⟩, _, h2⟩ := except_bind_ok h
      obtain ⟨st3, _, h3⟩ := except_bind_ok h2
      simp only [Except.ok.injEq, Prod.mk.injEq] at h3
      obtain ⟨h1, _, h3t⟩ := h3
      have hsrcnotdone : pathOf job.source ∉ done := by
        intro hmem
        have : done.contains (pathOf job.source) = true := by simpa using hmem
        rw [this] at hc
        exact absurd hc (by simp)
      refine ⟨[pathOf job.source], by rw [← h3t], by simp, ?_, ?_, ?_⟩
      · intro x hx
        rcases List.mem_singleton.mp hx with rfl
        exact hsrcnotdone
      · intro x hxdone
        rw [← h1]
        exact List.mem_append_left _ hxdone
      · intro x hx
        rcases List.mem_singleton.mp hx with rfl
        rw [← h1]
        simp

theorem processFilesGo_inv (pf : ProcFunc) (cfg : RunCfg) :
    ∀ (jobs : List Job) (done : List PPath) (st : RunSt) (trace : List PPath)
      (done2 : List PPath) (st2 : RunSt) (trace2 : List PPath),
      processFilesGo pf cfg jobs done st trace = .ok (done2, st2, trace2) →
      ∃ extra, trace2 = trace ++ extra ∧ extra.Nodup ∧
        (∀ x ∈ extra, x ∉ done) ∧ (∀ x ∈ done, x ∈ done2) ∧
        (∀ x ∈ extra, x ∈ done2) := by
  intro jobs
  induction jobs with
  | nil =>
    intro done st trace d2 s2 t2 h
    simp only [processFilesGo, Except.ok.injEq, Prod.mk.injEq] at h
    obtain ⟨h1, _, h3⟩ := h
    exact ⟨[], by simp [h3], by simp, by simp, fun x hx => h1 ▸ hx, by simp⟩
  | cons job rest ih =>
    intro done st trace d2 s2 t2 h
    rw [show processFilesGo pf cfg (job :: rest) done st trace
        = (processJob pf cfg job done st trace).bind fun r =>
            processFilesGo pf cfg rest r.1 r.2.1 r.2.2 from rfl] at h
    obtain ⟨⟨dm, sm, tm⟩, hj, h2⟩ := except_bind_ok h
    obtain ⟨e1, he1, hnd1, hdj1, hmono1, hsub1⟩ :=
      processJob_inv pf cfg job done st trace dm sm tm hj
    obtain ⟨e2, he2, hnd2, hdj2, hmono2, hsub2⟩ := ih dm sm tm d2 s2 t2 h2
    refine ⟨e1 ++ e2, ?_, ?_, ?_, ?_, ?_⟩
    · rw [he2, he1, List.append_assoc]
    · rw [List.nodup_append]
      exact ⟨hnd1, hnd2, fun x hx1 hx2 => (hdj2 x hx2) (hsub1 x hx1)⟩
    · intro x hx
      rcases List.mem_append.mp hx with h1 | h1
      · exact hdj1 x h1
      · exact fun hmem => (hdj2 x h1) (hmono1 x hmem)
    · intro x hxdone
      exact hmono2 x (hmono1 x hxdone)
    · intro x hx
      rcases List.mem_append.mp hx with h1 | h1
      · exact hmono2 x (hsub1 x h1)
      · exact hsub2 x h1

theorem processFilesGo_append (pf : ProcFunc) (cfg : RunCfg)
    (l1 l2 : List Job) :
    ∀ (done : List PPath) (st : RunSt) (trace : List PPath),
      processFilesGo pf cfg (l1 ++ l2) done st trace =
        (processFilesGo pf cfg l1 done st trace).bind
          (fun r => processFilesGo pf cfg l2 r.1 r.2.1 r.2.2) := by
  induction l1 with
  | nil =>
    intro done st trace
    rfl
  | cons job rest ih =>
    intro done st trace
    rw [List.cons_append,
      show processFilesGo pf cfg (job :: (rest ++ l2)) done st trace
        = (processJob pf cfg job done st trace).bind fun r =>
            processFilesGo pf cfg (rest ++ l2) r.1 r.2.1 r.2.2 from rfl,
      show processFilesGo pf cfg (job :: rest) done st trace
        = (processJob pf cfg job done st trace).bind fun r =>
            processFilesGo pf cfg rest r.1 r.2.1 r.2.2 from rfl]
    cases hj : processJob pf cfg job done st trace with
    | error e => rfl
    | ok r =>
      show processFilesGo pf cfg (rest ++ l2) r.1 r.2.1 r.2.2 = _
      rw [ih r.1 r.2.1 r.2.2]
      rfl

/-- C9 (amended): the job runner maintains a done set of already-handled
sources across the whole run, so every matched source file is processed at
most once (the trace of processed sources has no duplicates), and a later
catch-all job processes only sources not already handled by earlier jobs.
The resulting set of target files is NOT the same with and without the
catch-all: the catch-all additionally copies every not-yet-handled source
(see the counterexample). -/
theorem job_runner_done_set (pf : ProcFunc) (cfg : RunCfg) :
    (∀ (jobs : List Job) (st0 st1 : RunSt) (trace : List PPath),
      process_files pf cfg jobs st0 = .ok (st1, trace) → trace.Nodup) ∧
    (∀ (jobs : List Job) (catchall : Job) (st0 st1 st2 : RunSt)
        (trace1 trace2 : List PPath),
      process_files pf cfg jobs st0 = .ok (st1, trace1) →
      process_files pf cfg (jobs ++ [catchall]) st0 = .ok (st2, trace2) →
      ∃ extra, trace2 = trace1 ++ extra ∧ ∀ x ∈ extra, x ∉ trace1) := by
  constructor
  · intro jobs st0 st1 trace h
    unfold process_files at h
    cases hgo : processFilesGo pf cfg jobs [] st0 [] with
    | error e =>
      rw [hgo] at h
      exact absurd h (by simp [Except.map])
    | ok r =>
      obtain ⟨d, s, t⟩ := r
      rw [hgo] at h
      simp only [Except.map, Except.ok.injEq, Prod.mk.injEq] at h
      obtain ⟨e1, he1, hnd1, _, _, _⟩ :=
        processFilesGo_inv pf cfg jobs [] st0 [] d s t hgo
      rw [← h.2, he1]
      simpa using hnd1
  · intro jobs catchall st0 st1 st2 trace1 trace2 h1 h2
    unfold process_files at h1 h2
    cases hgo1 : processFilesGo pf cfg jobs [] st0 [] with
    | error e =>
      rw [hgo1] at h1
      exact absurd h1 (by simp [Except.map])
    | ok r1 =>
      obtain ⟨d1, s1, t1⟩ := r1
      rw [hgo1] at h1
      simp only [Except.map, Except.ok.injEq, Prod.mk.injEq] at h1
      rw [processFilesGo_append pf cfg jobs [catchall] [] st0 [], hgo1] at h2
      have hstep : (Except.ok (d1, s1, t1)).bind
          (fun r => processFilesGo pf cfg [catchall] r.1 r.2.1 r.2.2)
          = processFilesGo pf cfg [catchall] d1 s1 t1 := rfl
      rw [hstep] at h2
      rw [show processFilesGo pf cfg [catchall] d1 s1 t1
          = (processJob pf cfg catchall d1 s1 t1).bind fun r =>
              processFilesGo pf cfg [] r.1 r.2.1 r.2.2 from rfl] at h2
      cases hj : processJob pf cfg catchall d1 s1 t1 with
      | error e =>
        rw [hj] at h2
        exact absurd h2 (by simp [Except.bind, Except.map])
      | ok r2 =>
        obtain ⟨d2, s2, t2⟩ := r2
        rw [hj] at h2
        simp only [Except.bind, processFilesGo, Except.map, Except.ok.injEq,
          Prod.mk.injEq] at h2
        obtain ⟨extra, heq, _, hdj, _, _⟩ :=
          processJob_inv pf cfg catchall d1 s1 t1 d2 s2 t2 hj
        obtain ⟨e1, he1, _, _, _, hsub1⟩ :=
          processFilesGo_inv pf cfg jobs [] st0 [] d1 s1 t1 hgo1
        refine ⟨extra, ?_, ?_⟩
        · rw [← h2.2, heq, ← h1.2]
        · intro x hx hmem
          rw [← h1.2, he1] at hmem
          simp only [List.nil_append] at hmem
          exact (hdj x hx) (hsub1 x hmem)

/-- Witness for C9 at the two-file scenario: the catch-all's extra
processed sources avoid the already-handled `/src/a.txt`. -/
theorem job_runner_done_set_witness :
    ∃ extra, [pathOf "/src/a.txt", pathOf "/src/b.txt"]
        = [pathOf "/src/a.txt"] ++ extra ∧
      ∀ x ∈ extra, x ∉ [pathOf "/src/a.txt"] :=
  (job_runner_done_set copyOnlyProc c9Cfg).2 [c9JobA] c9CatchAll c9St0
    (RunSt.mk [(pathOf "/src/a.txt", "A"), (pathOf "/src/b.txt", "B"),
      (pathOf "/out/a.txt", "A")] true)
    (RunSt.mk [(pathOf "/src/a.txt", "A"), (pathOf "/src/b.txt", "B"),
      (pathOf "/out/a.txt", "A"), (pathOf "/out/b.txt", "B")] true)
    [pathOf "/src/a.txt"] [pathOf "/src/a.txt", pathOf "/src/b.txt"]
    (by rfl) (by rfl)

end JFM
